import Mathlib

set_option maxRecDepth 8000

/-!
Verification of the console-to-logger migration script.

The script rewrites a fixed manifest of source files: for each file it
checks existence, an "already migrated" marker, and the presence of
console calls; it then writes a backup, injects a logger import after
the last import line, and textually replaces the five console call
prefixes by logger calls.  File contents are modelled as `List Char`,
the filesystem as a function from paths to optional contents.
-/

abbrev Str := List Char

/-- Shorthand to write character lists as string literals. -/
def str (s : String) : Str := s.data

/-- The single-quote character (kept out of string literals). -/
def qc : Char := Char.ofNat 39

/-- The double-quote character (kept out of string literals). -/
def dqc : Char := Char.ofNat 34

/-- Python's substring test `pat in s`. -/
def hasSub (pat : Str) : Str → Bool
  | [] => pat.isEmpty
  | c :: t => pat.isPrefixOf (c :: t) || hasSub pat t

/-- Fuelled leftmost non-overlapping occurrence counter. -/
def cntGo (pat : Str) : Nat → Str → Nat
  | _, [] => 0
  | 0, _ :: _ => 0
  | f + 1, c :: t =>
    if pat ≠ [] ∧ pat <+: (c :: t) then 1 + cntGo pat f ((c :: t).drop pat.length)
    else cntGo pat f t

/-- Number of leftmost non-overlapping occurrences of `pat` in `s`
(the count used by Python's `re.findall`/`re.sub` for a literal pattern). -/
def countOcc (pat s : Str) : Nat := cntGo pat s.length s

/-- Fuelled replace-all worker. -/
def repGo (pat rep : Str) : Nat → Str → Str
  | _, [] => []
  | 0, s => s
  | f + 1, c :: t =>
    if pat ≠ [] ∧ pat <+: (c :: t) then rep ++ repGo pat rep f ((c :: t).drop pat.length)
    else c :: repGo pat rep f t

/-- Python's `re.sub` for a literal pattern: replace every leftmost
non-overlapping occurrence of `pat` by `rep`. -/
def replaceAll (pat rep s : Str) : Str := repGo pat rep s.length s

theorem cntGo_congr (pat : Str) :
    ∀ f g s, s.length ≤ f → s.length ≤ g → cntGo pat f s = cntGo pat g s := by
  intro f
  induction f using Nat.strong_induction_on with
  | _ f ih =>
    intro g s hf hg
    match s, f, g with
    | [], f, g => cases f <;> cases g <;> rfl
    | c :: t, 0, _ => simp at hf
    | c :: t, _, 0 => simp at hg
    | c :: t, f + 1, g + 1 =>
      simp only [cntGo]
      by_cases h : pat ≠ [] ∧ pat <+: (c :: t)
      · rw [if_pos h, if_pos h]
        have hlen : ((c :: t).drop pat.length).length ≤ f := by
          have hp : 1 ≤ pat.length := by
            cases pat with
            | nil => exact absurd rfl h.1
            | cons a as => simp
          have := List.length_drop pat.length (c :: t)
          simp only [this]
          omega
        have hleng : ((c :: t).drop pat.length).length ≤ g := by
          have := List.length_drop pat.length (c :: t)
          simp only [this]
          have hp : 1 ≤ pat.length := by
            cases pat with
            | nil => exact absurd rfl h.1
            | cons a as => simp
          omega
        rw [ih f (Nat.lt_succ_self f) g _ hlen hleng]
      · rw [if_neg h, if_neg h]
        have hlt : t.length ≤ f := by simpa using hf
        have hltg : t.length ≤ g := by simpa using hg
        rw [ih f (Nat.lt_succ_self f) g _ hlt hltg]

theorem cntGo_eq_countOcc (pat : Str) (f : Nat) (s : Str) (h : s.length ≤ f) :
    cntGo pat f s = countOcc pat s :=
  cntGo_congr pat f s.length s h (Nat.le_refl _)

theorem countOcc_nil (pat : Str) : countOcc pat [] = 0 := rfl

theorem countOcc_pos (pat s : Str) (hp : pat ≠ []) (hpre : pat <+: s) :
    countOcc pat s = 1 + countOcc pat (s.drop pat.length) := by
  match s with
  | [] =>
    rcases hpre with ⟨w, hw⟩
    cases pat with
    | nil => exact absurd rfl hp
    | cons a as => simp at hw
  | c :: t =>
    show cntGo pat (t.length + 1) (c :: t) = _
    rw [cntGo, if_pos ⟨hp, hpre⟩]
    congr 1
    apply cntGo_eq_countOcc
    have hlen := List.length_drop pat.length (c :: t)
    simp only [hlen]
    have hp1 : 1 ≤ pat.length := by
      cases pat with
      | nil => exact absurd rfl hp
      | cons a as => simp
    simp only [List.length_cons]
    omega

theorem countOcc_cons_neg (pat : Str) (c : Char) (t : Str) (h : ¬ pat <+: (c :: t)) :
    countOcc pat (c :: t) = countOcc pat t := by
  show cntGo pat (t.length + 1) (c :: t) = _
  rw [cntGo, if_neg (by tauto)]
  exact cntGo_eq_countOcc pat t.length t (Nat.le_refl _)

theorem repGo_congr (pat rep : Str) :
    ∀ f g s, s.length ≤ f → s.length ≤ g → repGo pat rep f s = repGo pat rep g s := by
  intro f
  induction f using Nat.strong_induction_on with
  | _ f ih =>
    intro g s hf hg
    match s, f, g with
    | [], f, g => cases f <;> cases g <;> rfl
    | c :: t, 0, _ => simp at hf
    | c :: t, _, 0 => simp at hg
    | c :: t, f + 1, g + 1 =>
      simp only [repGo]
      by_cases h : pat ≠ [] ∧ pat <+: (c :: t)
      · rw [if_pos h, if_pos h]
        have hp : 1 ≤ pat.length := by
          cases pat with
          | nil => exact absurd rfl h.1
          | cons a as => simp
        have hlen : ((c :: t).drop pat.length).length ≤ f := by
          have := List.length_drop pat.length (c :: t)
          simp only [this]
          omega
        have hleng : ((c :: t).drop pat.length).length ≤ g := by
          have := List.length_drop pat.length (c :: t)
          simp only [this]
          omega
        rw [ih f (Nat.lt_succ_self f) g _ hlen hleng]
      · rw [if_neg h, if_neg h]
        have hlt : t.length ≤ f := by simpa using hf
        have hltg : t.length ≤ g := by simpa using hg
        rw [ih f (Nat.lt_succ_self f) g _ hlt hltg]

theorem repGo_eq_replaceAll (pat rep : Str) (f : Nat) (s : Str) (h : s.length ≤ f) :
    repGo pat rep f s = replaceAll pat rep s :=
  repGo_congr pat rep f s.length s h (Nat.le_refl _)

theorem replaceAll_nil (pat rep : Str) : replaceAll pat rep [] = [] := rfl

theorem replaceAll_pos (pat rep s : Str) (hp : pat ≠ []) (hpre : pat <+: s) :
    replaceAll pat rep s = rep ++ replaceAll pat rep (s.drop pat.length) := by
  match s with
  | [] =>
    rcases hpre with ⟨w, hw⟩
    cases pat with
    | nil => exact absurd rfl hp
    | cons a as => simp at hw
  | c :: t =>
    show repGo pat rep (t.length + 1) (c :: t) = _
    rw [repGo, if_pos ⟨hp, hpre⟩]
    congr 1
    apply repGo_eq_replaceAll
    have hlen := List.length_drop pat.length (c :: t)
    simp only [hlen]
    have hp1 : 1 ≤ pat.length := by
      cases pat with
      | nil => exact absurd rfl hp
      | cons a as => simp
    simp only [List.length_cons]
    omega

theorem replaceAll_cons_neg (pat rep : Str) (c : Char) (t : Str) (h : ¬ pat <+: (c :: t)) :
    replaceAll pat rep (c :: t) = c :: replaceAll pat rep t := by
  show repGo pat rep (t.length + 1) (c :: t) = _
  rw [repGo, if_neg (by tauto)]
  rfl

theorem length_pos_of_ne_nil {pat : Str} (hp : pat ≠ []) : 0 < pat.length :=
  List.length_pos.mpr hp

theorem hasSub_iff (pat : Str) (hp : pat ≠ []) :
    ∀ s, hasSub pat s = true ↔ ∃ x y, s = x ++ pat ++ y := by
  intro s
  induction s with
  | nil =>
    simp only [hasSub, List.isEmpty_iff]
    constructor
    · intro h; exact absurd h hp
    · rintro ⟨x, y, hxy⟩
      cases pat with
      | nil => exact absurd rfl hp
      | cons a as => simp at hxy
  | cons c t ih =>
    simp only [hasSub, Bool.or_eq_true, List.isPrefixOf_iff_prefix]
    constructor
    · rintro (h | h)
      · rcases h with ⟨w, hw⟩
        exact ⟨[], w, by simpa using hw.symm⟩
      · rcases ih.mp h with ⟨x, y, hxy⟩
        exact ⟨c :: x, y, by simp [hxy]⟩
    · rintro ⟨x, y, hxy⟩
      cases x with
      | nil =>
        left
        exact ⟨y, by simpa using hxy.symm⟩
      | cons a x' =>
        right
        apply ih.mpr
        refine ⟨x', y, ?_⟩
        have h2 : c = a ∧ t = x' ++ (pat ++ y) := by simpa using hxy
        rw [h2.2, List.append_assoc]

theorem countOcc_zero_iff (pat : Str) (hp : pat ≠ []) :
    ∀ s, countOcc pat s = 0 ↔ hasSub pat s = false := by
  intro s
  induction s with
  | nil => simp [countOcc_nil, hasSub, List.isEmpty_iff, hp]
  | cons c t ih =>
    by_cases h : pat <+: (c :: t)
    · rw [countOcc_pos pat (c :: t) hp h]
      simp only [hasSub, Bool.or_eq_false_iff]
      constructor
      · omega
      · rintro ⟨h1, _⟩
        have h3 : List.isPrefixOf pat (c :: t) = true := List.isPrefixOf_iff_prefix.mpr h
        rw [h1] at h3
        simp at h3
    · rw [countOcc_cons_neg pat c t h]
      simp only [hasSub, Bool.or_eq_false_iff]
      rw [ih]
      constructor
      · intro h2
        refine ⟨?_, h2⟩
        rw [← Bool.not_eq_true, List.isPrefixOf_iff_prefix]
        exact h
      · rintro ⟨_, h2⟩
        exact h2

theorem replaceAll_of_hasSub_false (pat rep : Str) :
    ∀ s, hasSub pat s = false → replaceAll pat rep s = s := by
  intro s
  induction s with
  | nil => intro _; rfl
  | cons c t ih =>
    intro h
    simp only [hasSub, Bool.or_eq_false_iff] at h
    have hnp : ¬ pat <+: (c :: t) := by
      rw [← List.isPrefixOf_iff_prefix (α := Char)]
      simp [h.1]
    rw [replaceAll_cons_neg pat rep c t hnp, ih h.2]

theorem prefix_long_split {pat a b : Str} {ch : Char} (h : pat <+: a ++ ch :: b)
    (hl : a.length < pat.length) : ∃ p2, pat = a ++ ch :: p2 ∧ p2 <+: b := by
  have ha : a <+: pat := by
    apply List.prefix_of_prefix_length_le (List.prefix_append a (ch :: b)) h
    omega
  rcases ha with ⟨p', hp⟩
  rcases p' with _ | ⟨c', p2⟩
  · exfalso
    rw [← hp] at hl
    simp at hl
  · rcases h with ⟨w, hw⟩
    rw [← hp] at hw
    simp only [List.append_assoc, List.append_cancel_left_eq, List.cons_append] at hw
    rcases List.cons.injEq .. ▸ hw with ⟨h1, h2⟩
    refine ⟨p2, ?_, ⟨w, h2⟩⟩
    rw [← hp, h1]

theorem countOcc_barrier (pat : Str) (hp : pat ≠ []) (ch : Char) (hch : ch ∉ pat) :
    ∀ a b, countOcc pat (a ++ ch :: b) = countOcc pat a + countOcc pat b := by
  have key : ∀ n a b, a.length ≤ n →
      countOcc pat (a ++ ch :: b) = countOcc pat a + countOcc pat b := by
    intro n
    induction n with
    | zero =>
      intro a b ha
      have : a = [] := by
        cases a with
        | nil => rfl
        | cons x xs => simp at ha
      subst this
      simp only [List.nil_append, countOcc_nil, Nat.zero_add]
      have hnp : ¬ pat <+: ch :: b := by
        intro hpre
        cases pat with
        | nil => exact absurd rfl hp
        | cons p ps =>
          rw [List.cons_prefix_cons] at hpre
          exact hch (hpre.1 ▸ List.mem_cons_self p ps)
      exact countOcc_cons_neg pat ch b hnp
    | succ n ih =>
      intro a b ha
      cases a with
      | nil =>
        simp only [List.nil_append, countOcc_nil, Nat.zero_add]
        have hnp : ¬ pat <+: ch :: b := by
          intro hpre
          cases pat with
          | nil => exact absurd rfl hp
          | cons p ps =>
            rw [List.cons_prefix_cons] at hpre
            exact hch (hpre.1 ▸ List.mem_cons_self p ps)
        exact countOcc_cons_neg pat ch b hnp
      | cons c a' =>
        by_cases hpre : pat <+: (c :: a') ++ ch :: b
        · have hle : pat.length ≤ (c :: a').length := by
            by_contra hgt
            rcases prefix_long_split hpre (by omega) with ⟨p2, hpat, _⟩
            exact hch (hpat ▸ List.mem_append_right _ (List.mem_cons_self ch p2))
          have hpa : pat <+: (c :: a') :=
            List.prefix_of_prefix_length_le hpre (List.prefix_append _ _) hle
          rw [countOcc_pos pat _ hp hpre, countOcc_pos pat _ hp hpa,
            List.drop_append_of_le_length hle]
          have hlen : ((c :: a').drop pat.length).length ≤ n := by
            have h1 : 0 < pat.length := length_pos_of_ne_nil hp
            simp only [List.length_drop]
            simp only [List.length_cons] at ha ⊢
            omega
          rw [ih _ b hlen]
          omega
        · have hpa : ¬ pat <+: (c :: a') := fun hx => hpre (hx.trans (List.prefix_append _ _))
          have e1 : (c :: a') ++ ch :: b = c :: (a' ++ ch :: b) := by simp
          rw [e1] at hpre ⊢
          rw [countOcc_cons_neg pat _ _ hpre, countOcc_cons_neg pat _ _ hpa]
          have hlen : a'.length ≤ n := by
            simp only [List.length_cons] at ha
            omega
          exact ih a' b hlen
  intro a b
  exact key a.length a b (Nat.le_refl _)

theorem replaceAll_barrier (pat rep : Str) (hp : pat ≠ []) (ch : Char) (hch : ch ∉ pat) :
    ∀ a b, replaceAll pat rep (a ++ ch :: b) =
      replaceAll pat rep a ++ ch :: replaceAll pat rep b := by
  have key : ∀ n a b, a.length ≤ n →
      replaceAll pat rep (a ++ ch :: b) =
        replaceAll pat rep a ++ ch :: replaceAll pat rep b := by
    intro n
    induction n with
    | zero =>
      intro a b ha
      have : a = [] := by
        cases a with
        | nil => rfl
        | cons x xs => simp at ha
      subst this
      simp only [List.nil_append, replaceAll_nil]
      have hnp : ¬ pat <+: ch :: b := by
        intro hpre
        cases pat with
        | nil => exact absurd rfl hp
        | cons p ps =>
          rw [List.cons_prefix_cons] at hpre
          exact hch (hpre.1 ▸ List.mem_cons_self p ps)
      exact replaceAll_cons_neg pat rep ch b hnp
    | succ n ih =>
      intro a b ha
      cases a with
      | nil =>
        simp only [List.nil_append, replaceAll_nil]
        have hnp : ¬ pat <+: ch :: b := by
          intro hpre
          cases pat with
          | nil => exact absurd rfl hp
          | cons p ps =>
            rw [List.cons_prefix_cons] at hpre
            exact hch (hpre.1 ▸ List.mem_cons_self p ps)
        exact replaceAll_cons_neg pat rep ch b hnp
      | cons c a' =>
        by_cases hpre : pat <+: (c :: a') ++ ch :: b
        · have hle : pat.length ≤ (c :: a').length := by
            by_contra hgt
            rcases prefix_long_split hpre (by omega) with ⟨p2, hpat, _⟩
            exact hch (hpat ▸ List.mem_append_right _ (List.mem_cons_self ch p2))
          have hpa : pat <+: (c :: a') :=
            List.prefix_of_prefix_length_le hpre (List.prefix_append _ _) hle
          rw [replaceAll_pos pat rep _ hp hpre, replaceAll_pos pat rep _ hp hpa,
            List.drop_append_of_le_length hle]
          have hlen : ((c :: a').drop pat.length).length ≤ n := by
            have h1 : 0 < pat.length := length_pos_of_ne_nil hp
            simp only [List.length_drop]
            simp only [List.length_cons] at ha ⊢
            omega
          rw [ih _ b hlen]
          simp
        · have hpa : ¬ pat <+: (c :: a') := fun hx => hpre (hx.trans (List.prefix_append _ _))
          have e1 : (c :: a') ++ ch :: b = c :: (a' ++ ch :: b) := by simp
          rw [e1] at hpre ⊢
          rw [replaceAll_cons_neg pat rep _ _ hpre, replaceAll_cons_neg pat rep _ _ hpa]
          have hlen : a'.length ≤ n := by
            simp only [List.length_cons] at ha
            omega
          rw [ih a' b hlen]
          simp
  intro a b
  exact key a.length a b (Nat.le_refl _)

theorem replaceAll_copy (pat rep : Str) :
    ∀ u w, (∀ v, v ≠ [] → v <:+ u → ¬ pat <+: (v ++ w)) →
      replaceAll pat rep (u ++ w) = u ++ replaceAll pat rep w := by
  intro u
  induction u with
  | nil => intro w _; rfl
  | cons c u' ih =>
    intro w hv
    have h0 : ¬ pat <+: (c :: u') ++ w :=
      hv (c :: u') (by simp) (List.suffix_refl _)
    have e1 : (c :: u') ++ w = c :: (u' ++ w) := by simp
    rw [e1] at h0
    rw [e1, replaceAll_cons_neg pat rep _ _ h0, ih w ?_]
    · simp
    · intro v hvne hvs
      exact hv v hvne (hvs.trans (List.suffix_cons c u'))

theorem countOcc_copy (pat : Str) :
    ∀ u w, (∀ v, v ≠ [] → v <:+ u → ¬ pat <+: (v ++ w)) →
      countOcc pat (u ++ w) = countOcc pat w := by
  intro u
  induction u with
  | nil => intro w _; rfl
  | cons c u' ih =>
    intro w hv
    have h0 : ¬ pat <+: (c :: u') ++ w :=
      hv (c :: u') (by simp) (List.suffix_refl _)
    have e1 : (c :: u') ++ w = c :: (u' ++ w) := by simp
    rw [e1] at h0
    rw [e1, countOcc_cons_neg pat _ _ h0, ih w ?_]
    intro v hvne hvs
    exact hv v hvne (hvs.trans (List.suffix_cons c u'))

theorem countOcc_split (q : Str) (hq : q ≠ []) :
    ∀ x z, (∀ v, v <:+ x → v ≠ [] → v.length < q.length → ¬ v <+: q) →
      countOcc q (x ++ z) = countOcc q x + countOcc q z := by
  have key : ∀ n x z, x.length ≤ n →
      (∀ v, v <:+ x → v ≠ [] → v.length < q.length → ¬ v <+: q) →
      countOcc q (x ++ z) = countOcc q x + countOcc q z := by
    intro n
    induction n with
    | zero =>
      intro x z hx _
      have : x = [] := by
        cases x with
        | nil => rfl
        | cons a b => simp at hx
      subst this
      simp [countOcc_nil]
    | succ n ih =>
      intro x z hx hv
      cases x with
      | nil => simp [countOcc_nil]
      | cons c x' =>
        by_cases hpre : q <+: (c :: x') ++ z
        · have hle : q.length ≤ (c :: x').length := by
            by_contra hgt
            have hxq : (c :: x') <+: q :=
              List.prefix_of_prefix_length_le (List.prefix_append _ _) hpre (by omega)
            exact hv (c :: x') (List.suffix_refl _) (by simp) (by omega) hxq
          have hqa : q <+: (c :: x') :=
            List.prefix_of_prefix_length_le hpre (List.prefix_append _ _) hle
          rw [countOcc_pos q _ hq hpre, countOcc_pos q _ hq hqa,
            List.drop_append_of_le_length hle]
          have hlen : ((c :: x').drop q.length).length ≤ n := by
            have h1 : 0 < q.length := length_pos_of_ne_nil hq
            simp only [List.length_drop]
            simp only [List.length_cons] at hx ⊢
            omega
          rw [ih _ z hlen ?_]
          · omega
          · intro v hvs hvne hvl
            exact hv v (hvs.trans (List.drop_suffix _ _)) hvne hvl
        · have hqa : ¬ q <+: (c :: x') := fun hxq => hpre (hxq.trans (List.prefix_append _ _))
          have e1 : (c :: x') ++ z = c :: (x' ++ z) := by simp
          rw [e1] at hpre
          rw [e1, countOcc_cons_neg q _ _ hpre, countOcc_cons_neg q _ _ hqa]
          have hlen : x'.length ≤ n := by
            simp only [List.length_cons] at hx
            omega
          rw [ih x' z hlen ?_]
          intro v hvs hvne hvl
          exact hv v (hvs.trans (List.suffix_cons c x')) hvne hvl
  intro x z hv
  exact key x.length x z (Nat.le_refl _) hv

theorem prefix_reflect (pat rep y : Str) (hp : pat ≠ [])
    (hc : ∀ p, p <:+ y → p ≠ [] → p.length < y.length → ¬ p <+: rep ∧ ¬ rep <+: p) :
    ∀ s p, p <:+ y → p ≠ [] → p.length < y.length →
      p <+: replaceAll pat rep s → p <+: s := by
  have key : ∀ n s, s.length ≤ n → ∀ p, p <:+ y → p ≠ [] → p.length < y.length →
      p <+: replaceAll pat rep s → p <+: s := by
    intro n
    induction n with
    | zero =>
      intro s hs p _ hpne _ hpp
      have : s = [] := by
        cases s with
        | nil => rfl
        | cons a b => simp at hs
      subst this
      rw [replaceAll_nil] at hpp
      rcases p with _ | ⟨a, p'⟩
      · exact absurd rfl hpne
      · rcases hpp with ⟨w, hw⟩
        simp at hw
    | succ n ih =>
      intro s hs p hpy hpne hpl hpp
      cases s with
      | nil =>
        rw [replaceAll_nil] at hpp
        rcases p with _ | ⟨a, p'⟩
        · exact absurd rfl hpne
        · rcases hpp with ⟨w, hw⟩
          simp at hw
      | cons c t =>
        by_cases hpre : pat <+: (c :: t)
        · exfalso
          rw [replaceAll_pos pat rep _ hp hpre] at hpp
          rcases List.prefix_or_prefix_of_prefix hpp (List.prefix_append rep _) with h | h
          · exact (hc p hpy hpne hpl).1 h
          · exact (hc p hpy hpne hpl).2 h
        · rw [replaceAll_cons_neg pat rep _ _ hpre] at hpp
          rcases p with _ | ⟨a, p'⟩
          · exact absurd rfl hpne
          · rw [List.cons_prefix_cons] at hpp
            rcases hpp with ⟨hac, hp'⟩
            subst hac
            rcases p' with _ | ⟨b, p''⟩
            · simp
            · have hrec : (b :: p'') <+: t := by
                apply ih t (by simpa using hs) (b :: p'')
                · exact (List.suffix_cons a _).trans hpy
                · simp
                · simp only [List.length_cons] at hpl ⊢
                  omega
                · exact hp'
              rw [List.cons_prefix_cons]
              exact ⟨rfl, hrec⟩
  intro s
  exact key s.length s (Nat.le_refl _)

theorem countOcc_replaceAll_self (pat rep : Str) (hp : pat ≠ [])
    (h1 : ∀ v, v <:+ rep → v ≠ [] → ¬ v <+: pat ∧ ¬ pat <+: v)
    (h2 : ∀ p, p <:+ pat → p ≠ [] → p.length < pat.length → ¬ p <+: rep ∧ ¬ rep <+: p) :
    ∀ s, countOcc pat (replaceAll pat rep s) = 0 := by
  have key : ∀ n s, s.length ≤ n → countOcc pat (replaceAll pat rep s) = 0 := by
    intro n
    induction n with
    | zero =>
      intro s hs
      have : s = [] := by
        cases s with
        | nil => rfl
        | cons a b => simp at hs
      subst this
      rfl
    | succ n ih =>
      intro s hs
      by_cases hpre : pat <+: s
      · rw [replaceAll_pos pat rep s hp hpre]
        rw [countOcc_copy pat rep _ ?_]
        · apply ih
          have h0 : 0 < pat.length := length_pos_of_ne_nil hp
          have h3 : pat.length ≤ s.length := hpre.length_le
          simp only [List.length_drop]
          omega
        · intro v hvne hvs hcon
          rcases List.prefix_or_prefix_of_prefix hcon (List.prefix_append v _) with h | h
          · exact (h1 v hvs hvne).2 h
          · exact (h1 v hvs hvne).1 h
      · cases s with
        | nil => rfl
        | cons c t =>
          rw [replaceAll_cons_neg pat rep c t hpre]
          have hnp : ¬ pat <+: c :: replaceAll pat rep t := by
            intro hcon
            rcases pat with _ | ⟨a, pat'⟩
            · exact absurd rfl hp
            · rw [List.cons_prefix_cons] at hcon
              rcases hcon with ⟨hac, hP⟩
              subst hac
              rcases pat' with _ | ⟨b, pat''⟩
              · exact hpre (by simp)
              · have := prefix_reflect (a :: b :: pat'') rep (a :: b :: pat'') hp h2 t
                  (b :: pat'') (List.suffix_cons a _) (by simp) (by simp) hP
                exact hpre (List.cons_prefix_cons.mpr ⟨rfl, this⟩)
          rw [countOcc_cons_neg pat _ _ hnp]
          exact ih t (by simpa using hs)
  intro s
  exact key s.length s (Nat.le_refl _)

theorem countOcc_replaceAll_other (pat rep q : Str) (hp : pat ≠ []) (hq : q ≠ [])
    (hB1 : ∀ v, v <:+ rep → v ≠ [] → v.length < q.length → ¬ v <+: q)
    (hB2 : ∀ v, v <:+ pat → v ≠ [] → v.length < q.length → ¬ v <+: q)
    (hB3 : countOcc q pat = 0)
    (hB4 : ∀ v, v <:+ q → ¬ pat <+: v)
    (hB5 : ∀ v, v <:+ q → v ≠ [] → ¬ v <+: pat)
    (hB6 : ∀ p, p <:+ q → p ≠ [] → p.length < q.length → ¬ p <+: rep ∧ ¬ rep <+: p) :
    ∀ s, countOcc q (replaceAll pat rep s) =
      countOcc q s + countOcc q rep * countOcc pat s := by
  have key : ∀ n s, s.length ≤ n → countOcc q (replaceAll pat rep s) =
      countOcc q s + countOcc q rep * countOcc pat s := by
    intro n
    induction n with
    | zero =>
      intro s hs
      have : s = [] := by
        cases s with
        | nil => rfl
        | cons a b => simp at hs
      subst this
      simp [countOcc_nil, replaceAll_nil]
    | succ n ih =>
      intro s hs
      by_cases hpre : pat <+: s
      · rcases hpre with ⟨z, hz⟩
        subst hz
        have hdrop : (pat ++ z).drop pat.length = z := by
          rw [List.drop_append_of_le_length (Nat.le_refl _), List.drop_length,
            List.nil_append]
        rw [replaceAll_pos pat rep _ hp (List.prefix_append _ _), hdrop]
        rw [countOcc_split q hq rep _ ?_]
        · rw [ih z ?_]
          · rw [countOcc_split q hq pat z ?_]
            · rw [countOcc_pos pat _ hp (List.prefix_append _ _), hdrop, hB3]
              generalize countOcc q rep = A
              generalize countOcc q z = B
              generalize countOcc pat z = C
              simp [Nat.mul_add, Nat.mul_one]
              omega
            · intro v hvs hvne hvl
              exact hB2 v hvs hvne hvl
          · have h0 : 0 < pat.length := length_pos_of_ne_nil hp
            simp only [List.length_append] at hs
            omega
        · intro v hvs hvne hvl
          exact hB1 v hvs hvne hvl
      · by_cases hq2 : q <+: s
        · rcases hq2 with ⟨w, hw⟩
          subst hw
          have hcopy : ∀ v, v ≠ [] → v <:+ q → ¬ pat <+: (v ++ w) := by
            intro v hvne hvs hcon
            rcases List.prefix_or_prefix_of_prefix hcon (List.prefix_append v _) with h | h
            · exact hB4 v hvs h
            · exact hB5 v hvs hvne h
          rw [replaceAll_copy pat rep q w hcopy]
          have hdropq : ∀ X : Str, (q ++ X).drop q.length = X := by
            intro X
            rw [List.drop_append_of_le_length (Nat.le_refl _), List.drop_length,
              List.nil_append]
          rw [countOcc_pos q _ hq (List.prefix_append _ _), hdropq]
          rw [countOcc_pos q (q ++ w) hq (List.prefix_append _ _), hdropq]
          rw [countOcc_copy pat q w hcopy]
          rw [ih w ?_]
          · generalize countOcc q rep * countOcc pat w = K
            omega
          · have h0 : 0 < q.length := length_pos_of_ne_nil hq
            simp only [List.length_append] at hs
            omega
        · cases s with
          | nil => simp [countOcc_nil, replaceAll_nil]
          | cons c t =>
            rw [replaceAll_cons_neg pat rep c t hpre]
            have hnq : ¬ q <+: c :: replaceAll pat rep t := by
              intro hcon
              rcases q with _ | ⟨a, q'⟩
              · exact absurd rfl hq
              · rw [List.cons_prefix_cons] at hcon
                rcases hcon with ⟨hac, hQ⟩
                subst hac
                rcases q' with _ | ⟨b, q''⟩
                · exact hq2 (by simp)
                · have := prefix_reflect pat rep (a :: b :: q'') hp hB6 t
                    (b :: q'') (List.suffix_cons a _) (by simp) (by simp) hQ
                  exact hq2 (List.cons_prefix_cons.mpr ⟨rfl, this⟩)
            rw [countOcc_cons_neg q _ _ hnq]
            rw [countOcc_cons_neg q _ _ hq2, countOcc_cons_neg pat _ _ hpre]
            exact ih t (by simpa using hs)
  intro s
  exact key s.length s (Nat.le_refl _)

theorem replaceAll_preserves_within (pat rep q : Str) (hp : pat ≠ []) (hq : q ≠ [])
    (hEa : ∀ v, v <:+ q → v ≠ [] → ¬ v <+: pat)
    (hEb : ∀ v, v <:+ q → ¬ pat <+: v)
    (hEc : ∀ m, m <+: q → m ≠ [] → ¬ m <:+ pat)
    (hEd : hasSub q pat = false) :
    ∀ s x y, s = x ++ q ++ y → ∃ u v, replaceAll pat rep s = u ++ q ++ v := by
  have key : ∀ n s, s.length ≤ n → ∀ x y, s = x ++ q ++ y →
      ∃ u v, replaceAll pat rep s = u ++ q ++ v := by
    intro n
    induction n with
    | zero =>
      intro s hs x y hxy
      exfalso
      have : s = [] := by
        cases s with
        | nil => rfl
        | cons a b => simp at hs
      subst this
      rcases List.append_eq_nil.mp hxy.symm with ⟨h1, _⟩
      rcases List.append_eq_nil.mp h1 with ⟨_, h2⟩
      exact hq h2
    | succ n ih =>
      intro s hs x y hxy
      by_cases hpre : pat <+: s
      · by_cases hlen : pat.length ≤ x.length
        · have hdrop : s.drop pat.length = x.drop pat.length ++ q ++ y := by
            rw [hxy, List.append_assoc, List.drop_append_of_le_length hlen,
              List.append_assoc]
          have hlen2 : (s.drop pat.length).length ≤ n := by
            have h0 : 0 < pat.length := length_pos_of_ne_nil hp
            have h3 : pat.length ≤ s.length := hpre.length_le
            simp only [List.length_drop]
            omega
          rcases ih (s.drop pat.length) hlen2 (x.drop pat.length) y hdrop with ⟨u, v, huv⟩
          refine ⟨rep ++ u, v, ?_⟩
          rw [replaceAll_pos pat rep s hp hpre, huv]
          simp
        · exfalso
          have hxs : x <+: s := by
            rw [hxy, List.append_assoc]
            exact List.prefix_append _ _
          have hxp : x <+: pat :=
            List.prefix_of_prefix_length_le hxs hpre (by omega)
          rcases hxp with ⟨m, hm⟩
          have hmne : m ≠ [] := by
            intro h0
            rw [h0, List.append_nil] at hm
            rw [hm] at hlen
            omega
          have hmsuf : m <:+ pat := ⟨x, hm⟩
          have hmqy : m <+: q ++ y := by
            have : x ++ m <+: x ++ (q ++ y) := by
              rw [hm, ← List.append_assoc, ← hxy]
              exact hpre
            exact (List.prefix_append_right_inj x).mp this
          by_cases hml : m.length ≤ q.length
          · have : m <+: q :=
              List.prefix_of_prefix_length_le hmqy (List.prefix_append _ _) hml
            exact hEc m this hmne hmsuf
          · have hqm : q <+: m :=
              List.prefix_of_prefix_length_le (List.prefix_append _ _) hmqy (by omega)
            rcases hqm with ⟨m2, hm2⟩
            have : hasSub q pat = true := by
              rw [hasSub_iff q hq]
              exact ⟨x, m2, by rw [← hm, ← hm2, List.append_assoc]⟩
            rw [hEd] at this
            simp at this
      · cases x with
        | nil =>
          simp only [List.nil_append] at hxy
          subst hxy
          have hcopy : ∀ v, v ≠ [] → v <:+ q → ¬ pat <+: (v ++ y) := by
            intro v hvne hvs hcon
            rcases List.prefix_or_prefix_of_prefix hcon (List.prefix_append v _) with h | h
            · exact hEb v hvs h
            · exact hEa v hvs hvne h
          rw [replaceAll_copy pat rep q y hcopy]
          exact ⟨[], replaceAll pat rep y, by simp⟩
        | cons c x' =>
          have hxy2 : s = c :: (x' ++ q ++ y) := by simpa using hxy
          subst hxy2
          rw [replaceAll_cons_neg pat rep _ _ hpre]
          rcases ih (x' ++ q ++ y) (by simpa using hs) x' y rfl with ⟨u, v, huv⟩
          exact ⟨c :: u, v, by rw [huv]; simp⟩
  intro s
  exact key s.length s (Nat.le_refl _)

/-- Python's `content.split(sep)` for a one-character separator. -/
def splitC (sep : Char) : Str → List Str
  | [] => [[]]
  | c :: t =>
    if c = sep then [] :: splitC sep t
    else (c :: (splitC sep t).headI) :: (splitC sep t).tail

/-- Python's `sep.join(lines)` for a one-character separator. -/
def joinC (sep : Char) : List Str → Str
  | [] => []
  | [l] => l
  | l :: l2 :: ls => l ++ sep :: joinC sep (l2 :: ls)

theorem splitC_ne_nil (sep : Char) : ∀ s, splitC sep s ≠ [] := by
  intro s
  cases s with
  | nil => simp [splitC]
  | cons c t =>
    by_cases h : c = sep <;> simp [splitC, h]

theorem joinC_cons_ne (sep : Char) (a : Str) (L : List Str) (h : L ≠ []) :
    joinC sep (a :: L) = a ++ sep :: joinC sep L := by
  cases L with
  | nil => exact absurd rfl h
  | cons b bs => rfl

theorem joinC_splitC (sep : Char) : ∀ s, joinC sep (splitC sep s) = s := by
  intro s
  induction s with
  | nil => rfl
  | cons c t ih =>
    by_cases h : c = sep
    · rw [splitC, if_pos h, joinC_cons_ne sep [] _ (splitC_ne_nil sep t), ih]
      simp [h]
    · rcases hsp : splitC sep t with _ | ⟨l, ls⟩
      · exact absurd hsp (splitC_ne_nil sep t)
      · rw [splitC, if_neg h, hsp]
        rw [hsp] at ih
        cases ls with
        | nil =>
          simp only [List.headI, List.tail]
          show joinC sep [c :: l] = c :: t
          rw [← ih]
          rfl
        | cons l2 ls' =>
          simp only [List.headI, List.tail]
          rw [joinC_cons_ne sep _ _ (by simp)]
          rw [joinC_cons_ne sep l _ (by simp)] at ih
          rw [← ih]
          simp

theorem splitC_append_sep (sep : Char) :
    ∀ u w, splitC sep (u ++ sep :: w) = splitC sep u ++ splitC sep w := by
  intro u
  induction u with
  | nil =>
    intro w
    show splitC sep (sep :: w) = [[]] ++ splitC sep w
    rw [splitC, if_pos rfl]
    rfl
  | cons c u' ih =>
    intro w
    have e1 : (c :: u') ++ sep :: w = c :: (u' ++ sep :: w) := by simp
    by_cases h : c = sep
    · rw [e1, splitC, if_pos h, ih w, splitC, if_pos h]
      rfl
    · rw [e1, splitC, if_neg h, ih w, splitC, if_neg h]
      rcases hsp : splitC sep u' with _ | ⟨l, ls⟩
      · exact absurd hsp (splitC_ne_nil sep u')
      · simp [hsp]

theorem splitC_no_sep (sep : Char) : ∀ u, sep ∉ u → splitC sep u = [u] := by
  intro u
  induction u with
  | nil => intro _; rfl
  | cons c u' ih =>
    intro h
    have hc : c ≠ sep := fun hc => h (hc ▸ List.mem_cons_self c u')
    have hu : sep ∉ u' := fun hu => h (List.mem_cons_of_mem c hu)
    rw [splitC, if_neg hc, ih hu]
    rfl

theorem splitC_joinC_free (sep : Char) :
    ∀ L, (∀ l ∈ L, sep ∉ l) → L ≠ [] → splitC sep (joinC sep L) = L := by
  intro L
  induction L with
  | nil => intro _ h; exact absurd rfl h
  | cons a L' ih =>
    intro hfree _
    cases L' with
    | nil =>
      show splitC sep (joinC sep [a]) = [a]
      exact splitC_no_sep sep a (hfree a (by simp))
    | cons b bs =>
      rw [joinC_cons_ne sep a _ (by simp), splitC_append_sep,
        splitC_no_sep sep a (hfree a (by simp)), ih ?_ (by simp)]
      · rfl
      · intro l hl
        exact hfree l (List.mem_cons_of_mem a hl)

theorem splitC_joinC_insert (sep : Char) :
    ∀ A m B, (∀ l ∈ A, sep ∉ l) → (∀ l ∈ B, sep ∉ l) →
      splitC sep (joinC sep (A ++ m :: B)) = A ++ splitC sep m ++ B := by
  intro A
  induction A with
  | nil =>
    intro m B _ hB
    cases B with
    | nil =>
      show splitC sep (joinC sep [m]) = splitC sep m ++ []
      rw [List.append_nil]
      rfl
    | cons b bs =>
      rw [List.nil_append, joinC_cons_ne sep m _ (by simp), splitC_append_sep,
        splitC_joinC_free sep (b :: bs) hB (by simp)]
      simp
  | cons a A' ih =>
    intro m B hA hB
    have e1 : (a :: A') ++ m :: B = a :: (A' ++ m :: B) := by simp
    rw [e1, joinC_cons_ne sep a _ (by simp), splitC_append_sep,
      splitC_no_sep sep a (hA a (by simp)), ih m B ?_ hB]
    · simp
    · intro l hl
      exact hA l (List.mem_cons_of_mem a hl)

theorem countOcc_joinC (X : Str) (hX : X ≠ []) (sep : Char) (hsep : sep ∉ X) :
    ∀ L, countOcc X (joinC sep L) = (L.map (countOcc X)).sum := by
  intro L
  induction L with
  | nil => simp [joinC, countOcc_nil]
  | cons a L' ih =>
    cases L' with
    | nil => simp [joinC]
    | cons b bs =>
      rw [joinC_cons_ne sep a _ (by simp), countOcc_barrier X hX sep hsep, ih]
      simp

/-- Python `str.isspace` on the ASCII whitespace characters. -/
def wsp (c : Char) : Bool :=
  c = ' ' || c = '\t' || c = '\n' || c = '\r' || c = Char.ofNat 11 || c = Char.ofNat 12

/-- Python `str.strip()`. -/
def strip (l : Str) : Str := ((l.dropWhile wsp).reverse.dropWhile wsp).reverse

/-- The per-line test of the migration script:
`line.strip().startswith('import ') and 'type' not in line`. -/
def isImportLine (l : Str) : Bool :=
  (str "import ").isPrefixOf (strip l) && !(hasSub (str "type") l)

/-- Index of the last line satisfying `isImportLine` (the script's
`last_import_idx`, with `none` standing for `-1`). -/
def lastImportIdx : List Str → Option Nat
  | [] => none
  | l :: ls =>
    match lastImportIdx ls with
    | some i => some (i + 1)
    | none => if isImportLine l then some 0 else none

/-- Python `list.insert(n, x)`. -/
def insertAt (n : Nat) (x : Str) (L : List Str) : List Str := L.take n ++ x :: L.drop n

/-- Steps 'find last import' / 'insert import after last import' of
`migrate_file`, lines 151-164 of the script. -/
def injectContent (snip content : Str) : Str :=
  let lines := splitC '\n' content
  match lastImportIdx lines with
  | some i => joinC '\n' (insertAt (i + 1) snip lines)
  | none => snip ++ '\n' :: content

/-- `Path(filepath).name`: the last nonempty `/`-separated component. -/
def pathName (p : Str) : Str :=
  (((splitC '/' p).filter (fun l => !l.isEmpty)).getLast?).getD []

/-- Index of the last `'.'` in a name (Python `str.rfind('.')`). -/
def lastDotIdx (n : Str) : Option Nat :=
  match n.reverse.findIdx? (fun c => c = '.') with
  | none => none
  | some j => some (n.length - 1 - j)

/-- `Path(filepath).stem`: the final path component minus its last suffix. -/
def stem (p : Str) : Str :=
  let n := pathName p
  match lastDotIdx n with
  | some i => if 0 < i ∧ i < n.length - 1 then n.take i else n
  | none => n

def apiRoot : Str := str "src/app/api/"

/-- One attempted match of `src/app/api/([^/]+(?:/[^/]+)?)` anchored at the
start of `s`; returns the capture group on success. -/
def tryApiAt (s : Str) : Option Str :=
  if apiRoot.isPrefixOf s then
    let rest := s.drop apiRoot.length
    let c1 := rest.takeWhile (fun c => c != '/')
    if c1.isEmpty then none
    else
      match rest.drop c1.length with
      | '/' :: r2 =>
        let c2 := r2.takeWhile (fun c => c != '/')
        if c2.isEmpty then some c1 else some (c1 ++ '/' :: c2)
      | _ => some c1
  else none

/-- `re.search(r'src/app/api/([^/]+(?:/[^/]+)?)', s)`: the capture group of
the leftmost match. -/
def apiMatch : Str → Option Str
  | [] => none
  | c :: t =>
    match tryApiAt (c :: t) with
    | some g => some g
    | none => apiMatch t

/-- `get_scope` of the script (lines 85-112): `none` models Python `None`. -/
def getScope (p : Str) : Option Str :=
  if hasSub (str "api/") p then
    match apiMatch p with
    | some g => some (str "api:" ++ g.map (fun c => if c = '/' then ':' else c))
    | none => some (str "api:unknown")
  else if hasSub (str "services/") p && hasSub (str "ValidationService") p then
    some (str "validation:" ++ stem p)
  else if hasSub (str "services/") p then
    some (str "service:" ++ stem p)
  else if hasSub (str "domain/entities/") p then
    some (str "domain:entity:" ++ stem p)
  else if hasSub (str "domain/value-objects/") p then
    some (str "domain:vo:" ++ stem p)
  else if hasSub (str "repositories/") p then
    some (str "repository:" ++ stem p)
  else if hasSub (str "config/") p then
    some (str "config:" ++ stem p)
  else none

def loggerModule : Str := str "@/lib/logger"

/-- `'@/lib/logger'` with single quotes. -/
def loggerRefSingle : Str := qc :: (loggerModule ++ [qc])

/-- `"@/lib/logger"` with double quotes. -/
def loggerRefDouble : Str := dqc :: (loggerModule ++ [dqc])

/-- The scoped import snippet of lines 146. -/
def scopedSnippet (sc : Str) : Str :=
  str "import { createScopedLogger } from " ++ loggerRefSingle ++
    str "\n\nconst logger = createScopedLogger(" ++ (qc :: (sc ++ [qc])) ++ str ")\n"

/-- The default import snippet of line 149. -/
def defaultSnippet : Str := str "import { logger } from " ++ loggerRefSingle ++ str "\n"

/-- The `import_statement` computed for a file path (lines 143-149). -/
def snippetFor (p : Str) : Str :=
  match getScope p with
  | some sc => scopedSnippet sc
  | none => defaultSnippet

def conLog : Str := str "console.log("

def conError : Str := str "console.error("

def conWarn : Str := str "console.warn("

def conInfo : Str := str "console.info("

def conDebug : Str := str "console.debug("

def logInfo : Str := str "logger.info("

def logError : Str := str "logger.error("

def logWarn : Str := str "logger.warn("

def logDebug : Str := str "logger.debug("

/-- The five `re.sub` calls of lines 167-171, in source order. -/
def applySubs (s : Str) : Str :=
  replaceAll conDebug logDebug
    (replaceAll conInfo logInfo
      (replaceAll conWarn logWarn
        (replaceAll conError logError
          (replaceAll conLog logInfo s))))

/-- Line 127: `"'@/lib/logger'" in content or '"@/lib/logger"' in content`. -/
def hasLoggerRef (c : Str) : Bool :=
  hasSub loggerRefSingle c || hasSub loggerRefDouble c

/-- Line 132: `re.search(r'console\.(log|error|warn|info|debug)', content)`. -/
def hasConsole (c : Str) : Bool :=
  hasSub (str "console.log") c || hasSub (str "console.error") c ||
    hasSub (str "console.warn") c || hasSub (str "console.info") c ||
    hasSub (str "console.debug") c

/-- The full content transformation applied to a migrated file. -/
def migrateContent (p content : Str) : Str :=
  applySubs (injectContent (snippetFor p) content)

/-- The filesystem: a map from paths to file contents. -/
def FS : Type := Str → Option Str

/-- Writing a file. -/
def fsSet (fs : FS) (p c : Str) : FS := fun x => if x = p then some c else fs x

/-- `base_dir / filepath`. -/
def fullPath (base p : Str) : Str := base ++ '/' :: p

/-- `str(full_path) + '.bak'`. -/
def bakPath (base p : Str) : Str := fullPath base p ++ str ".bak"

/-- Per-entry outcome of `migrate_file` (the script prints one line per case
and returns `True` exactly for `migrated`). -/
inductive Outcome
  | migrated
  | skippedMissing
  | skippedAlready
  | skippedNoMatches
deriving DecidableEq

/-- `migrate_file(filepath, base_dir)` (lines 114-178): existence check,
already-migrated check, console check, backup write, transform, write-back. -/
def migrateFile (base : Str) (fs : FS) (p : Str) : FS × Outcome :=
  match fs (fullPath base p) with
  | none => (fs, Outcome.skippedMissing)
  | some content =>
    if hasLoggerRef content then (fs, Outcome.skippedAlready)
    else if !(hasConsole content) then (fs, Outcome.skippedNoMatches)
    else
      (fsSet (fsSet fs (bakPath base p) content) (fullPath base p)
        (migrateContent p content), Outcome.migrated)

/-- The manifest loop of `main` (lines 192-197), recording per-entry outcomes. -/
def runAll (base : Str) : FS → List Str → FS × List Outcome
  | fs, [] => (fs, [])
  | fs, p :: rest =>
    let r := migrateFile base fs p
    let t := runAll base r.1 rest
    (t.1, r.2 :: t.2)

/-- The counter bookkeeping of `main`: `total`, `migrated`, `skipped`. -/
def runCounts (base : Str) : FS → List Str → Nat → Nat → Nat → Nat × Nat × Nat
  | _, [], t, mg, sk => (t, mg, sk)
  | fs, p :: rest, t, mg, sk =>
    let r := migrateFile base fs p
    if r.2 = Outcome.migrated then runCounts base r.1 rest (t + 1) (mg + 1) sk
    else runCounts base r.1 rest (t + 1) mg (sk + 1)

theorem fsSet_same (fs : FS) (p c : Str) : fsSet fs p c p = some c := by
  simp [fsSet]

theorem fsSet_other (fs : FS) (p c x : Str) (h : x ≠ p) : fsSet fs p c x = fs x := by
  simp [fsSet, h]

theorem bakPath_ne_fullPath (base p : Str) : bakPath base p ≠ fullPath base p := by
  intro h
  have h2 := congrArg List.length h
  simp only [bakPath, List.length_append] at h2
  have h3 : (str ".bak").length = 4 := by decide
  omega

theorem migrateFile_missing (base : Str) (fs : FS) (p : Str)
    (h : fs (fullPath base p) = none) :
    migrateFile base fs p = (fs, Outcome.skippedMissing) := by
  unfold migrateFile
  rw [h]

theorem migrateFile_already (base : Str) (fs : FS) (p c : Str)
    (h : fs (fullPath base p) = some c) (hr : hasLoggerRef c = true) :
    migrateFile base fs p = (fs, Outcome.skippedAlready) := by
  unfold migrateFile
  rw [h]
  simp [hr]

theorem migrateFile_nomatch (base : Str) (fs : FS) (p c : Str)
    (h : fs (fullPath base p) = some c) (hr : hasLoggerRef c = false)
    (hc : hasConsole c = false) :
    migrateFile base fs p = (fs, Outcome.skippedNoMatches) := by
  unfold migrateFile
  rw [h]
  simp [hr, hc]

theorem migrateFile_migrates (base : Str) (fs : FS) (p c : Str)
    (h : fs (fullPath base p) = some c) (hr : hasLoggerRef c = false)
    (hc : hasConsole c = true) :
    migrateFile base fs p =
      (fsSet (fsSet fs (bakPath base p) c) (fullPath base p) (migrateContent p c),
        Outcome.migrated) := by
  unfold migrateFile
  rw [h]
  simp [hr, hc]

/-- C7: a manifest entry whose resolved file does not exist is recorded
`skipped-missing`, causes no filesystem mutation, and the loop goes on to
process the remaining entries unchanged. -/
theorem missing_file_skips_and_continues (base : Str) (fs : FS) (p : Str) (rest : List Str)
    (h : fs (fullPath base p) = none) :
    migrateFile base fs p = (fs, Outcome.skippedMissing) ∧
    runAll base fs (p :: rest) =
      ((runAll base fs rest).1, Outcome.skippedMissing :: (runAll base fs rest).2) := by
  have h1 := migrateFile_missing base fs p h
  refine ⟨h1, ?_⟩
  show (let r := migrateFile base fs p
        let t := runAll base r.1 rest
        (t.1, r.2 :: t.2)) = _
  rw [h1]

/-- C7 witness. -/
theorem missing_file_skips_and_continues_witness :
    migrateFile (str "b") (fun _ => none) (str "a.ts") =
      ((fun _ => none : FS), Outcome.skippedMissing) ∧
    runAll (str "b") (fun _ => none) [str "a.ts"] =
      ((runAll (str "b") (fun _ => none) []).1,
        Outcome.skippedMissing :: (runAll (str "b") (fun _ => none) []).2) :=
  missing_file_skips_and_continues (str "b") (fun _ => none) (str "a.ts") [] rfl

theorem runCounts_invariant (base : Str) :
    ∀ m (fs : FS) t mg sk, mg + sk = t →
      ((runCounts base fs m t mg sk).2.1 + (runCounts base fs m t mg sk).2.2 =
        (runCounts base fs m t mg sk).1) ∧
      (runCounts base fs m t mg sk).1 = t + m.length := by
  intro m
  induction m with
  | nil =>
    intro fs t mg sk h
    exact ⟨h, by simp [runCounts]⟩
  | cons p rest ih =>
    intro fs t mg sk h
    show (runCounts base fs (p :: rest) t mg sk).2.1 + _ = _ ∧ _
    unfold runCounts
    by_cases hc : (migrateFile base fs p).2 = Outcome.migrated
    · rw [if_pos hc]
      rcases ih (migrateFile base fs p).1 (t + 1) (mg + 1) sk (by omega) with ⟨h1, h2⟩
      exact ⟨h1, by rw [h2]; simp; omega⟩
    · rw [if_neg hc]
      rcases ih (migrateFile base fs p).1 (t + 1) mg (sk + 1) (by omega) with ⟨h1, h2⟩
      exact ⟨h1, by rw [h2]; simp; omega⟩

/-- C8: starting from zeroed counters, after the loop has consumed any list of
manifest entries the counters satisfy `migrated + skipped = total` and `total`
equals the number of entries processed; as this holds for an arbitrary entry
list, it holds after every iteration of the manifest loop and at the final
summary. -/
theorem counters_add_up (base : Str) (fs : FS) (m : List Str) :
    (runCounts base fs m 0 0 0).2.1 + (runCounts base fs m 0 0 0).2.2 =
      (runCounts base fs m 0 0 0).1 ∧
    (runCounts base fs m 0 0 0).1 = m.length := by
  rcases runCounts_invariant base m fs 0 0 0 rfl with ⟨h1, h2⟩
  exact ⟨h1, by omega⟩

/-- C2: whenever `migrate_file` reports a file migrated, the final state holds
a backup at the original path plus `.bak` whose content is exactly the
pre-migration content, while the original path holds the transformed
content.  (In the script the backup write at lines 138-140 precedes the
write-back at lines 173-175.) -/
theorem backup_has_premigration_content (base : Str) (fs : FS) (p : Str)
    (h : (migrateFile base fs p).2 = Outcome.migrated) :
    ∃ c, fs (fullPath base p) = some c ∧
      (migrateFile base fs p).1 (bakPath base p) = some c ∧
      (migrateFile base fs p).1 (fullPath base p) = some (migrateContent p c) := by
  rcases hc : fs (fullPath base p) with _ | c
  · rw [migrateFile_missing base fs p hc] at h ⊢
    simp at h
  · by_cases hr : hasLoggerRef c = true
    · rw [migrateFile_already base fs p c hc hr] at h
      simp at h
    · rw [Bool.not_eq_true] at hr
      by_cases hcon : hasConsole c = true
      · rw [migrateFile_migrates base fs p c hc hr hcon]
        refine ⟨c, rfl, ?_, ?_⟩
        · rw [show (fsSet (fsSet fs (bakPath base p) c) (fullPath base p)
              (migrateContent p c), Outcome.migrated).1 =
              fsSet (fsSet fs (bakPath base p) c) (fullPath base p)
                (migrateContent p c) from rfl,
            fsSet_other _ _ _ _ (bakPath_ne_fullPath base p), fsSet_same]
        · rw [show (fsSet (fsSet fs (bakPath base p) c) (fullPath base p)
              (migrateContent p c), Outcome.migrated).1 =
              fsSet (fsSet fs (bakPath base p) c) (fullPath base p)
                (migrateContent p c) from rfl, fsSet_same]
      · rw [Bool.not_eq_true] at hcon
        rw [migrateFile_nomatch base fs p c hc hr hcon] at h
        simp at h

/-- C2 witness. -/
theorem backup_has_premigration_content_witness :
    ∃ c, (fun x => if x = fullPath (str "b") (str "a.ts")
            then some (str "console.log(1)") else none : FS) (fullPath (str "b") (str "a.ts")) = some c ∧
      (migrateFile (str "b")
        (fun x => if x = fullPath (str "b") (str "a.ts")
            then some (str "console.log(1)") else none) (str "a.ts")).1
          (bakPath (str "b") (str "a.ts")) = some c ∧
      (migrateFile (str "b")
        (fun x => if x = fullPath (str "b") (str "a.ts")
            then some (str "console.log(1)") else none) (str "a.ts")).1
          (fullPath (str "b") (str "a.ts")) = some (migrateContent (str "a.ts") c) :=
  backup_has_premigration_content (str "b")
    (fun x => if x = fullPath (str "b") (str "a.ts")
        then some (str "console.log(1)") else none) (str "a.ts") (by decide)

/-- C10: the call-site substitution is non-injective — two files that differ
only in one call site using `console.log(` versus `console.info(` migrate to
identical outputs, so the original level is unrecoverable. -/
theorem substitution_not_injective :
    str "console.log(1)\n" ≠ str "console.info(1)\n" ∧
    migrateContent (str "src/hooks/useX.ts") (str "console.log(1)\n") =
      migrateContent (str "src/hooks/useX.ts") (str "console.info(1)\n") := by
  constructor
  · decide
  · decide

/-- C1 counterexample: the content `const f = console.log;` has zero
occurrences of every parenthesised `console.<level>(` pattern and no logger
reference, yet `migrate_file` migrates it and rewrites the file, because the
applicability check at line 132 matches `console.<level>` without the open
parenthesis. -/
theorem no_paren_console_still_migrated :
    countOcc conLog (str "const f = console.log;\n") = 0 ∧
    countOcc conError (str "const f = console.log;\n") = 0 ∧
    countOcc conWarn (str "const f = console.log;\n") = 0 ∧
    countOcc conInfo (str "const f = console.log;\n") = 0 ∧
    countOcc conDebug (str "const f = console.log;\n") = 0 ∧
    hasLoggerRef (str "const f = console.log;\n") = false ∧
    (migrateFile (str "b")
      (fun x => if x = fullPath (str "b") (str "src/hooks/useX.ts")
        then some (str "const f = console.log;\n") else none)
      (str "src/hooks/useX.ts")).2 = Outcome.migrated ∧
    (migrateFile (str "b")
      (fun x => if x = fullPath (str "b") (str "src/hooks/useX.ts")
        then some (str "const f = console.log;\n") else none)
      (str "src/hooks/useX.ts")).1 (fullPath (str "b") (str "src/hooks/useX.ts")) ≠
      some (str "const f = console.log;\n") := by
  refine ⟨by decide, by decide, by decide, by decide, by decide, by decide, by decide, ?_⟩
  decide

/-- C1 (amended): a manifest entry whose file exists, whose content does not
reference the logger module, and whose content has zero occurrences of every
`console.<level>` substring (without the open parenthesis — the check at line
132 omits it) is left untouched: no write, no backup, outcome
skipped-no-matches. -/
theorem no_console_substring_skips (base : Str) (fs : FS) (p c : Str)
    (hex : fs (fullPath base p) = some c)
    (href : hasLoggerRef c = false)
    (h1 : countOcc (str "console.log") c = 0)
    (h2 : countOcc (str "console.error") c = 0)
    (h3 : countOcc (str "console.warn") c = 0)
    (h4 : countOcc (str "console.info") c = 0)
    (h5 : countOcc (str "console.debug") c = 0) :
    migrateFile base fs p = (fs, Outcome.skippedNoMatches) := by
  have hcon : hasConsole c = false := by
    unfold hasConsole
    rw [(countOcc_zero_iff _ (by decide) c).mp h1,
      (countOcc_zero_iff _ (by decide) c).mp h2,
      (countOcc_zero_iff _ (by decide) c).mp h3,
      (countOcc_zero_iff _ (by decide) c).mp h4,
      (countOcc_zero_iff _ (by decide) c).mp h5]
    rfl
  exact migrateFile_nomatch base fs p c hex href hcon

/-- C1 witness. -/
theorem no_console_substring_skips_witness :
    migrateFile (str "b")
      (fun x => if x = fullPath (str "b") (str "a.ts") then some (str "hello\n") else none)
      (str "a.ts") =
      ((fun x => if x = fullPath (str "b") (str "a.ts")
          then some (str "hello\n") else none : FS), Outcome.skippedNoMatches) :=
  no_console_substring_skips (str "b")
    (fun x => if x = fullPath (str "b") (str "a.ts") then some (str "hello\n") else none)
    (str "a.ts") (str "hello\n") (by decide) (by decide) (by decide) (by decide)
    (by decide) (by decide) (by decide)

theorem splitC_headI_prefix (sep : Char) : ∀ t, ∃ y, t = (splitC sep t).headI ++ y := by
  intro t
  induction t with
  | nil => exact ⟨[], rfl⟩
  | cons c t' ih =>
    by_cases h : c = sep
    · rw [splitC, if_pos h]
      exact ⟨c :: t', rfl⟩
    · rw [splitC, if_neg h]
      rcases ih with ⟨y, hy⟩
      exact ⟨y, by simp [← hy]⟩

theorem splitC_mem_within (sep : Char) : ∀ s l, l ∈ splitC sep s → ∃ x y, s = x ++ l ++ y := by
  intro s
  induction s with
  | nil =>
    intro l hl
    simp only [splitC, List.mem_singleton] at hl
    exact ⟨[], [], by simp [hl]⟩
  | cons c t ih =>
    intro l hl
    by_cases h : c = sep
    · rw [splitC, if_pos h] at hl
      rcases List.mem_cons.mp hl with h1 | h1
      · exact ⟨[], c :: t, by simp [h1]⟩
      · rcases ih l h1 with ⟨x, y, hxy⟩
        exact ⟨c :: x, y, by simp [hxy]⟩
    · rw [splitC, if_neg h] at hl
      rcases List.mem_cons.mp hl with h1 | h1
      · rcases splitC_headI_prefix sep t with ⟨y, hy⟩
        exact ⟨[], y, by rw [h1]; simp [← hy]⟩
      · have h2 : l ∈ splitC sep t := by
          rcases hsp : splitC sep t with _ | ⟨a, as⟩
          · exact absurd hsp (splitC_ne_nil sep t)
          · rw [hsp] at h1
            simp only [List.tail] at h1
            exact hsp ▸ List.mem_cons_of_mem a h1
        rcases ih l h2 with ⟨x, y, hxy⟩
        exact ⟨c :: x, y, by simp [hxy]⟩

theorem pathName_within (p : Str) : ∃ x y, p = x ++ pathName p ++ y := by
  rcases hgl : ((splitC '/' p).filter (fun l => !l.isEmpty)).getLast? with _ | l
  · have hname : pathName p = [] := by rw [pathName, hgl]; rfl
    rw [hname]
    exact ⟨p, [], by simp⟩
  · have hname : pathName p = l := by rw [pathName, hgl]; rfl
    have hx : l ∈ ((splitC '/' p).filter (fun l => !l.isEmpty)).getLast? := by
      rw [hgl]; rfl
    have hmem : l ∈ (splitC '/' p).filter (fun l => !l.isEmpty) := by
      rcases List.mem_getLast?_eq_getLast hx with ⟨hne, hl⟩
      rw [hl]
      exact List.getLast_mem hne
    
    have hmem2 : l ∈ splitC '/' p := (List.mem_filter.mp hmem).1
    rw [hname]
    rcases splitC_mem_within '/' p l hmem2 with ⟨x, y, hxy⟩
    exact ⟨x, y, hxy⟩

theorem hasSub_of_within (q m s : Str) (hq : q ≠ []) (h1 : hasSub q m = true)
    (h2 : ∃ x y, s = x ++ m ++ y) : hasSub q s = true := by
  rcases (hasSub_iff q hq m).mp h1 with ⟨a, b, hab⟩
  rcases h2 with ⟨x, y, hxy⟩
  rw [hasSub_iff q hq]
  exact ⟨x ++ a, b ++ y, by rw [hxy, hab]; simp⟩

/-- C5 counterexample: a path inside the API tree satisfies both the
services-directory predicate and the ValidationService-basename predicate yet
`get_scope` classifies it `api:*`, because the `api/` rule is checked first. -/
theorem validation_path_classified_api :
    hasSub (str "services/") (str "src/app/api/services/FooValidationService.ts") = true ∧
    hasSub (str "ValidationService")
      (pathName (str "src/app/api/services/FooValidationService.ts")) = true ∧
    getScope (str "src/app/api/services/FooValidationService.ts") =
      some (str "api:services:FooValidationService.ts") ∧
    ¬ (str "validation:") <+: (str "api:services:FooValidationService.ts") := by
  refine ⟨by decide, by decide, ?_, by decide⟩
  decide

/-- C5 (amended): for every path that does not contain the substring `api/`,
satisfies the services-directory predicate, and whose base name contains
`ValidationService`, `get_scope` returns a `validation:`-prefixed label and
never a `service:`-prefixed one: the validation rule is evaluated before the
generic service rule. -/
theorem validation_beats_service (p : Str)
    (hapi : hasSub (str "api/") p = false)
    (hsvc : hasSub (str "services/") p = true)
    (hval : hasSub (str "ValidationService") (pathName p) = true) :
    ∃ sc, getScope p = some sc ∧ (str "validation:") <+: sc ∧
      ¬ (str "service:") <+: sc := by
  have hvp : hasSub (str "ValidationService") p = true :=
    hasSub_of_within _ _ p (by decide) hval (pathName_within p)
  refine ⟨str "validation:" ++ stem p, ?_, List.prefix_append _ _, ?_⟩
  · unfold getScope
    rw [hapi, hsvc, hvp]
    rfl
  · intro hcon
    have hcon' : ('s' :: str "ervice:") <+: ('v' :: (str "alidation:" ++ stem p)) := hcon
    rcases List.cons_prefix_cons.mp hcon' with ⟨hsv, _⟩
    exact absurd hsv (by decide)

/-- C5 witness. -/
theorem validation_beats_service_witness :
    ∃ sc, getScope (str "src/services/FooValidationService.ts") = some sc ∧
      (str "validation:") <+: sc ∧ ¬ (str "service:") <+: sc :=
  validation_beats_service (str "src/services/FooValidationService.ts")
    (by decide) (by decide) (by decide)

theorem splitC_mem_no_sep (sep : Char) : ∀ s l, l ∈ splitC sep s → sep ∉ l := by
  intro s
  induction s with
  | nil =>
    intro l hl
    simp only [splitC, List.mem_singleton] at hl
    simp [hl]
  | cons c t ih =>
    intro l hl
    by_cases h : c = sep
    · rw [splitC, if_pos h] at hl
      rcases List.mem_cons.mp hl with h1 | h1
      · simp [h1]
      · exact ih l h1
    · rw [splitC, if_neg h] at hl
      rcases List.mem_cons.mp hl with h1 | h1
      · subst h1
        intro hmem
        rcases List.mem_cons.mp hmem with h2 | h2
        · exact h h2.symm
        · have hh : (splitC sep t).headI ∈ splitC sep t := by
            rcases hsp : splitC sep t with _ | ⟨a, as⟩
            · exact absurd hsp (splitC_ne_nil sep t)
            · simp
          exact ih _ hh h2
      · have h2 : l ∈ splitC sep t := by
          rcases hsp : splitC sep t with _ | ⟨a, as⟩
          · exact absurd hsp (splitC_ne_nil sep t)
          · rw [hsp] at h1
            exact hsp ▸ List.mem_cons_of_mem a h1
        exact ih l h2

theorem getD_mem_of_lt : ∀ (L : List Str) (j : Nat), j < L.length → L.getD j [] ∈ L := by
  intro L
  induction L with
  | nil =>
    intro j h
    simp at h
  | cons a ls ih =>
    intro j h
    rcases j with _ | j'
    · simp
    · simp only [List.getD_cons_succ]
      exact List.mem_cons_of_mem a (ih j' (by simpa using h))

theorem lastImportIdx_none : ∀ L, lastImportIdx L = none → ∀ l ∈ L, isImportLine l = false := by
  intro L
  induction L with
  | nil =>
    intro _ l hl
    simp at hl
  | cons a ls ih =>
    intro h l hl
    simp only [lastImportIdx] at h
    rcases hli : lastImportIdx ls with _ | i
    · rw [hli] at h
      by_cases ha : isImportLine a = true
      · rw [if_pos ha] at h
        simp at h
      · rcases List.mem_cons.mp hl with h1 | h1
        · rw [h1]
          simpa using ha
        · exact ih hli l h1
    · rw [hli] at h
      simp at h

theorem lastImportIdx_spec : ∀ (L : List Str) i, lastImportIdx L = some i →
    i < L.length ∧ isImportLine (L.getD i []) = true ∧
    ∀ j, i < j → j < L.length → isImportLine (L.getD j []) = false := by
  intro L
  induction L with
  | nil =>
    intro i h
    simp [lastImportIdx] at h
  | cons a ls ih =>
    intro i h
    simp only [lastImportIdx] at h
    rcases hli : lastImportIdx ls with _ | k
    · rw [hli] at h
      by_cases ha : isImportLine a = true
      · rw [if_pos ha] at h
        have hi : i = 0 := by
          have := Option.some.inj h
          omega
        subst hi
        refine ⟨by simp, by simpa using ha, ?_⟩
        intro j h0 hj
        rcases j with _ | j'
        · omega
        · simp only [List.getD_cons_succ]
          exact lastImportIdx_none ls hli _ (getD_mem_of_lt ls j' (by simpa using hj))
      · rw [if_neg ha] at h
        simp at h
    · rw [hli] at h
      have hi : i = k + 1 := (Option.some.inj h).symm
      subst hi
      rcases ih k hli with ⟨h1, h2, h3⟩
      refine ⟨by simp; omega, by simpa using h2, ?_⟩
      intro j hj hjl
      rcases j with _ | j'
      · omega
      · simp only [List.getD_cons_succ]
        exact h3 j' (by omega) (by simpa using hjl)

theorem injectContent_some (snip content : Str) (i : Nat)
    (h : lastImportIdx (splitC '\n' content) = some i) :
    injectContent snip content =
      joinC '\n' (insertAt (i + 1) snip (splitC '\n' content)) := by
  simp only [injectContent, h]

theorem injectContent_none (snip content : Str)
    (h : lastImportIdx (splitC '\n' content) = none) :
    injectContent snip content = snip ++ '\n' :: content := by
  simp only [injectContent, h]

/-- A line predicate following the spec's wording, for stating C4 as written:
trimmed form begins with the import keyword and the import is not type-only
(modelled as the trimmed form not beginning with `import type`).  The code's
own predicate is `isImportLine`. -/
def specImportLine (l : Str) : Bool :=
  (str "import ").isPrefixOf (strip l) && !((str "import type").isPrefixOf (strip l))

/-- Index of the last line satisfying `specImportLine`. -/
def specLastImportIdx : List Str → Option Nat
  | [] => none
  | l :: ls =>
    match specLastImportIdx ls with
    | some i => some (i + 1)
    | none => if specImportLine l then some 0 else none

/-- C4 counterexample: in a migrated file whose last non-type-only import
line is `import { b } from ./types` (a value import whose module path merely
contains the substring `type`), the snippet is NOT inserted after that line —
the code's test `'type' not in line` skips it, so the snippet lands after the
earlier import. -/
theorem snippet_not_after_last_nontype_import :
    specLastImportIdx (splitC '\n'
      (str "import { a } from x\nimport { b } from ./types\nconsole.log(ok)\n")) =
      some 1 ∧
    hasConsole (str "import { a } from x\nimport { b } from ./types\nconsole.log(ok)\n") =
      true ∧
    hasLoggerRef (str "import { a } from x\nimport { b } from ./types\nconsole.log(ok)\n") =
      false ∧
    splitC '\n' (injectContent (snippetFor (str "src/hooks/useX.ts"))
        (str "import { a } from x\nimport { b } from ./types\nconsole.log(ok)\n")) ≠
      (splitC '\n'
          (str "import { a } from x\nimport { b } from ./types\nconsole.log(ok)\n")).take 2 ++
        splitC '\n' (snippetFor (str "src/hooks/useX.ts")) ++
        (splitC '\n'
          (str "import { a } from x\nimport { b } from ./types\nconsole.log(ok)\n")).drop 2 := by
  refine ⟨by decide, by decide, by decide, ?_⟩
  decide

/-- C4 (amended): let an import line be a line whose trimmed form begins with
`import ` (with a space) and which does not contain the substring `type`
anywhere.  If such a line exists, the snippet is inserted as the line(s)
immediately following the last one, all other lines keeping content and
relative order; if none exists, the snippet is prepended before all existing
content followed by a blank-line separator. -/
theorem snippet_insertion_location (snip content : Str) :
    (∀ i, lastImportIdx (splitC '\n' content) = some i →
      splitC '\n' (injectContent snip content) =
        (splitC '\n' content).take (i + 1) ++ splitC '\n' snip ++
          (splitC '\n' content).drop (i + 1) ∧
      i < (splitC '\n' content).length ∧
      isImportLine ((splitC '\n' content).getD i []) = true ∧
      ∀ j, i < j → j < (splitC '\n' content).length →
        isImportLine ((splitC '\n' content).getD j []) = false) ∧
    (lastImportIdx (splitC '\n' content) = none →
      injectContent snip content = snip ++ '\n' :: content) := by
  constructor
  · intro i h
    rcases lastImportIdx_spec (splitC '\n' content) i h with ⟨h1, h2, h3⟩
    refine ⟨?_, h1, h2, h3⟩
    rw [injectContent_some snip content i h]
    show splitC '\n' (joinC '\n' ((splitC '\n' content).take (i + 1) ++
      snip :: (splitC '\n' content).drop (i + 1))) = _
    rw [splitC_joinC_insert '\n' _ snip _ ?_ ?_]
    · intro l hl
      exact splitC_mem_no_sep '\n' content l (List.take_subset _ _ hl)
    · intro l hl
      exact splitC_mem_no_sep '\n' content l (List.drop_subset _ _ hl)
  · intro h
    exact injectContent_none snip content h

/-- C4 witness. -/
theorem snippet_insertion_location_witness :
    splitC '\n' (injectContent (str "SNIP") (str "import a from b\nconsole.log(1)\n")) =
      (splitC '\n' (str "import a from b\nconsole.log(1)\n")).take 1 ++
        splitC '\n' (str "SNIP") ++
        (splitC '\n' (str "import a from b\nconsole.log(1)\n")).drop 1 ∧
    injectContent (str "SNIP") (str "console.log(1)\n") =
      str "SNIP" ++ '\n' :: str "console.log(1)\n" :=
  ⟨((snippet_insertion_location (str "SNIP")
      (str "import a from b\nconsole.log(1)\n")).1 0 (by decide)).1,
    (snippet_insertion_location (str "SNIP") (str "console.log(1)\n")).2 (by decide)⟩

theorem drop_len_append (u v : Str) : (u ++ v).drop u.length = v := by
  rw [List.drop_append_of_le_length (Nat.le_refl _), List.drop_length, List.nil_append]

theorem takeWhile_slash (c1 d : Str) (h1 : '/' ∉ c1) (h2 : d = [] ∨ d.head? = some '/') :
    (c1 ++ d).takeWhile (fun c => c != '/') = c1 := by
  induction c1 with
  | nil =>
    rcases h2 with h | h
    · simp [h]
    · cases d with
      | nil => simp
      | cons a d' =>
        have ha : a = '/' := by simpa using h
        simp [List.takeWhile_cons, ha]
  | cons a c1' ih =>
    have ha : a ≠ '/' := fun he => h1 (he ▸ List.mem_cons_self a c1')
    have ih2 := ih (fun hm => h1 (List.mem_cons_of_mem a hm))
    simp only [List.cons_append, List.takeWhile_cons]
    simp [ha, ih2]

theorem apiMatch_none_of_no_root : ∀ p, hasSub apiRoot p = false → apiMatch p = none := by
  intro p
  induction p with
  | nil => intro _; rfl
  | cons c t ih =>
    intro h
    simp only [hasSub, Bool.or_eq_false_iff] at h
    have htry : tryApiAt (c :: t) = none := by
      unfold tryApiAt
      rw [h.1]
      rfl
    simp only [apiMatch, htry]
    exact ih h.2

theorem apiMatch_skip : ∀ a r,
    (∀ j, j < a.length → apiRoot.isPrefixOf ((a ++ r).drop j) = false) →
    apiMatch (a ++ r) = apiMatch r := by
  intro a
  induction a with
  | nil => intro r _; rfl
  | cons c a' ih =>
    intro r h
    have h0 : apiRoot.isPrefixOf (c :: (a' ++ r)) = false := by
      have := h 0 (by simp)
      simpa using this
    have htry : tryApiAt (c :: (a' ++ r)) = none := by
      unfold tryApiAt
      rw [h0]
      rfl
    show apiMatch (c :: (a' ++ r)) = apiMatch r
    simp only [apiMatch, htry]
    apply ih
    intro j hj
    have := h (j + 1) (by simp; omega)
    simpa using this

theorem apiMatch_eq_of_tryApiAt (s : Str) (g : Str) (hne : s ≠ [])
    (h : tryApiAt s = some g) : apiMatch s = some g := by
  cases s with
  | nil => exact absurd rfl hne
  | cons c t =>
    simp only [apiMatch, h]

theorem tryApiAt_two (c1 c2 d : Str) (h1 : c1 ≠ []) (h2 : '/' ∉ c1)
    (h3 : c2 ≠ []) (h4 : '/' ∉ c2) (h5 : d = [] ∨ d.head? = some '/') :
    tryApiAt (apiRoot ++ (c1 ++ '/' :: (c2 ++ d))) = some (c1 ++ '/' :: c2) := by
  unfold tryApiAt
  rw [List.isPrefixOf_iff_prefix.mpr (List.prefix_append _ _), if_pos rfl]
  simp only [drop_len_append]
  have htw1 : (c1 ++ '/' :: (c2 ++ d)).takeWhile (fun c => c != '/') = c1 :=
    takeWhile_slash c1 ('/' :: (c2 ++ d)) h2 (Or.inr rfl)
  rw [htw1]
  have hne1 : c1.isEmpty = false := by
    cases c1 with
    | nil => exact absurd rfl h1
    | cons x xs => rfl
  rw [hne1]
  simp only [Bool.false_eq_true, if_false, drop_len_append]
  have htw2 : (c2 ++ d).takeWhile (fun c => c != '/') = c2 := takeWhile_slash c2 d h4 h5
  rw [htw2]
  have hne2 : c2.isEmpty = false := by
    cases c2 with
    | nil => exact absurd rfl h3
    | cons x xs => rfl
  rw [hne2]
  rfl

theorem tryApiAt_one (c1 d : Str) (h1 : c1 ≠ []) (h2 : '/' ∉ c1)
    (h5 : d = [] ∨ ∃ d2, d = '/' :: d2 ∧ (d2 = [] ∨ d2.head? = some '/')) :
    tryApiAt (apiRoot ++ (c1 ++ d)) = some c1 := by
  unfold tryApiAt
  rw [List.isPrefixOf_iff_prefix.mpr (List.prefix_append _ _), if_pos rfl]
  simp only [drop_len_append]
  have hh : d = [] ∨ d.head? = some '/' := by
    rcases h5 with h | ⟨d2, hd2, _⟩
    · exact Or.inl h
    · exact Or.inr (by rw [hd2]; rfl)
  rw [takeWhile_slash c1 d h2 hh]
  have hne1 : c1.isEmpty = false := by
    cases c1 with
    | nil => exact absurd rfl h1
    | cons x xs => rfl
  rw [hne1]
  simp only [Bool.false_eq_true, if_false, drop_len_append]
  rcases h5 with h | ⟨d2, hd2, hh2⟩
  · rw [h]
  · rw [hd2]
    have htw : d2.takeWhile (fun c => c != '/') = [] := by
      rcases hh2 with h | h
      · simp [h]
      · cases d2 with
        | nil => simp
        | cons a d' =>
          have ha : a = '/' := by simpa using h
          simp [List.takeWhile_cons, ha]
    show (if (List.takeWhile (fun c => c != '/') d2).isEmpty = true then some c1
      else some (c1 ++ '/' :: List.takeWhile (fun c => c != '/') d2)) = some c1
    rw [htw]
    rfl

theorem map_colon_id (u : Str) (h : '/' ∉ u) :
    u.map (fun c => if c = '/' then ':' else c) = u := by
  induction u with
  | nil => rfl
  | cons a u' ih =>
    have ha : a ≠ '/' := fun he => h (he ▸ List.mem_cons_self a u')
    simp only [List.map_cons, if_neg ha]
    rw [ih (fun hm => h (List.mem_cons_of_mem a hm))]

theorem getScope_api_of (p : Str) (h : hasSub (str "api/") p = true) :
    getScope p =
      match apiMatch p with
      | some g => some (str "api:" ++ g.map (fun c => if c = '/' then ':' else c))
      | none => some (str "api:unknown") := by
  unfold getScope
  rw [h]
  rfl

theorem append_ne_nil_left (u v : Str) (h : u ≠ []) : u ++ v ≠ [] :=
  fun hc => h (List.append_eq_nil.mp hc).1

theorem hasSub_api_of_root (a X : Str) :
    hasSub (str "api/") (a ++ (apiRoot ++ X)) = true := by
  rw [hasSub_iff (str "api/") (by decide)]
  refine ⟨a ++ str "src/app/", X, ?_⟩
  have e : apiRoot = str "src/app/" ++ str "api/" := by decide
  rw [e]
  simp

/-- C9: for a path containing an API segment `api/`, `get_scope` returns an
`api:`-prefixed label; when the path decomposes at the leftmost occurrence of
the API root `src/app/api/` followed by one or two clean path components, the
label is `api:` plus those components with `/` replaced by `:`; when the path
triggers the API rule but the root pattern `src/app/api/` occurs nowhere,
the result is `api:unknown`. -/
theorem api_scope_characterization :
    (∀ p, hasSub (str "api/") p = true →
      ∃ r, getScope p = some r ∧ (str "api:") <+: r) ∧
    (∀ a c1 c2 d, c1 ≠ [] → '/' ∉ c1 → c2 ≠ [] → '/' ∉ c2 →
      (d = [] ∨ d.head? = some '/') →
      (∀ j, j < a.length →
        apiRoot.isPrefixOf ((a ++ (apiRoot ++ (c1 ++ '/' :: (c2 ++ d)))).drop j) = false) →
      getScope (a ++ (apiRoot ++ (c1 ++ '/' :: (c2 ++ d)))) =
        some (str "api:" ++ (c1 ++ ':' :: c2))) ∧
    (∀ a c1 d, c1 ≠ [] → '/' ∉ c1 →
      (d = [] ∨ ∃ d2, d = '/' :: d2 ∧ (d2 = [] ∨ d2.head? = some '/')) →
      (∀ j, j < a.length →
        apiRoot.isPrefixOf ((a ++ (apiRoot ++ (c1 ++ d))).drop j) = false) →
      getScope (a ++ (apiRoot ++ (c1 ++ d))) = some (str "api:" ++ c1)) ∧
    (∀ p, hasSub (str "api/") p = true → hasSub apiRoot p = false →
      getScope p = some (str "api:unknown")) := by
  refine ⟨?_, ?_, ?_, ?_⟩
  · intro p h
    rw [getScope_api_of p h]
    rcases apiMatch p with _ | g
    · exact ⟨str "api:unknown", rfl, by decide⟩
    · exact ⟨str "api:" ++ g.map (fun c => if c = '/' then ':' else c), rfl,
        List.prefix_append _ _⟩
  · intro a c1 c2 d h1 h2 h3 h4 h5 hskip
    rw [getScope_api_of _ (hasSub_api_of_root a _)]
    have hm : apiMatch (a ++ (apiRoot ++ (c1 ++ '/' :: (c2 ++ d)))) =
        some (c1 ++ '/' :: c2) := by
      rw [apiMatch_skip a _ hskip]
      exact apiMatch_eq_of_tryApiAt _ _ (append_ne_nil_left _ _ (by decide))
        (tryApiAt_two c1 c2 d h1 h2 h3 h4 h5)
    rw [hm]
    show some (str "api:" ++
        (c1 ++ '/' :: c2).map (fun c => if c = '/' then ':' else c)) =
      some (str "api:" ++ (c1 ++ ':' :: c2))
    rw [List.map_append, List.map_cons, map_colon_id c1 h2, map_colon_id c2 h4]
    simp
  · intro a c1 d h1 h2 h5 hskip
    rw [getScope_api_of _ (hasSub_api_of_root a _)]
    have hm : apiMatch (a ++ (apiRoot ++ (c1 ++ d))) = some c1 := by
      rw [apiMatch_skip a _ hskip]
      exact apiMatch_eq_of_tryApiAt _ _ (append_ne_nil_left _ _ (by decide))
        (tryApiAt_one c1 d h1 h2 h5)
    rw [hm]
    show some (str "api:" ++ c1.map (fun c => if c = '/' then ':' else c)) =
      some (str "api:" ++ c1)
    rw [map_colon_id c1 h2]
  · intro p h hroot
    rw [getScope_api_of p h, apiMatch_none_of_no_root p hroot]

/-- C9 witness. -/
theorem api_scope_characterization_witness :
    getScope (str "src/app/api/deposit/route.ts") = some (str "api:deposit:route.ts") ∧
    getScope (str "lib/api/x.ts") = some (str "api:unknown") := by
  constructor
  · have h := api_scope_characterization.2.1 [] (str "deposit") (str "route.ts") []
      (by decide) (by decide) (by decide) (by decide) (Or.inl rfl)
      (by intro j hj; simp at hj)
    have e : ([] : Str) ++ (apiRoot ++ (str "deposit" ++ '/' :: (str "route.ts" ++ ([] : Str)))) =
        str "src/app/api/deposit/route.ts" := by decide
    have e2 : str "api:" ++ (str "deposit" ++ ':' :: str "route.ts") =
        str "api:deposit:route.ts" := by decide
    rw [e, e2] at h
    exact h
  · exact api_scope_characterization.2.2.2 (str "lib/api/x.ts") (by decide) (by decide)

theorem not_prefix_of_isPrefixOf_false {u v : Str} (h : u.isPrefixOf v = false) :
    ¬ u <+: v := by
  intro hp
  have h2 := List.isPrefixOf_iff_prefix.mpr hp
  rw [h] at h2
  exact absurd h2 (by decide)

theorem not_suffix_of_isSuffixOf_false {u v : Str} (h : u.isSuffixOf v = false) :
    ¬ u <:+ v := by
  intro hp
  have h2 := List.isSuffixOf_iff_suffix.mpr hp
  rw [h] at h2
  exact absurd h2 (by decide)

theorem ne_nil_of_isEmpty_false {u : Str} (h : u.isEmpty = false) : u ≠ [] := by
  intro hp
  rw [hp] at h
  exact absurd h (by decide)

theorem isEmpty_false_of_ne_nil {u : Str} (h : u ≠ []) : u.isEmpty = false := by
  cases u with
  | nil => exact absurd rfl h
  | cons a b => rfl

/-- Decidable bundle of the side conditions of `countOcc_replaceAll_self`. -/
def condSelf (pat rep : Str) : Bool :=
  (rep.tails.all fun v => v.isEmpty ||
    (!(v.isPrefixOf pat) && !(pat.isPrefixOf v))) &&
  (pat.tails.all fun q => q.isEmpty || q.length == pat.length ||
    (!(q.isPrefixOf rep) && !(rep.isPrefixOf q)))

theorem countOcc_self_zero (pat rep : Str) (hp : pat ≠ []) (hc : condSelf pat rep = true) :
    ∀ s, countOcc pat (replaceAll pat rep s) = 0 := by
  rw [condSelf, Bool.and_eq_true] at hc
  rcases hc with ⟨hc1, hc2⟩
  rw [List.all_eq_true] at hc1 hc2
  apply countOcc_replaceAll_self pat rep hp
  · intro v hvs hvne
    have h := hc1 v ((List.mem_tails v rep).mpr hvs)
    rcases Bool.or_eq_true _ _ |>.mp h with h | h
    · exact absurd (List.isEmpty_iff.mp h) hvne
    · rw [Bool.and_eq_true] at h
      exact ⟨not_prefix_of_isPrefixOf_false (by simpa using h.1),
        not_prefix_of_isPrefixOf_false (by simpa using h.2)⟩
  · intro q hqs hqne hql
    have h := hc2 q ((List.mem_tails q pat).mpr hqs)
    rcases Bool.or_eq_true _ _ |>.mp h with h | h
    · rcases Bool.or_eq_true _ _ |>.mp h with h | h
      · exact absurd (List.isEmpty_iff.mp h) hqne
      · have h2 : q.length = pat.length := by simpa using h
        omega
    · rw [Bool.and_eq_true] at h
      exact ⟨not_prefix_of_isPrefixOf_false (by simpa using h.1),
        not_prefix_of_isPrefixOf_false (by simpa using h.2)⟩

/-- Decidable bundle of the side conditions of `countOcc_replaceAll_other`. -/
def condOther (pat rep q : Str) : Bool :=
  (rep.tails.all fun v => v.isEmpty || !(decide (v.length < q.length)) ||
    !(v.isPrefixOf q)) &&
  (pat.tails.all fun v => v.isEmpty || !(decide (v.length < q.length)) ||
    !(v.isPrefixOf q)) &&
  (countOcc q pat == 0) &&
  (q.tails.all fun v => !(pat.isPrefixOf v)) &&
  (q.tails.all fun v => v.isEmpty || !(v.isPrefixOf pat)) &&
  (q.tails.all fun p2 => p2.isEmpty || p2.length == q.length ||
    (!(p2.isPrefixOf rep) && !(rep.isPrefixOf p2)))

theorem countOcc_other (pat rep q : Str) (hp : pat ≠ []) (hq : q ≠ [])
    (hc : condOther pat rep q = true) :
    ∀ s, countOcc q (replaceAll pat rep s) =
      countOcc q s + countOcc q rep * countOcc pat s := by
  rw [condOther] at hc
  simp only [Bool.and_eq_true] at hc
  rcases hc with ⟨⟨⟨⟨⟨hB1, hB2⟩, hB3⟩, hB4⟩, hB5⟩, hB6⟩
  rw [List.all_eq_true] at hB1 hB2 hB4 hB5 hB6
  apply countOcc_replaceAll_other pat rep q hp hq
  · intro v hvs hvne hvl
    have h := hB1 v ((List.mem_tails v rep).mpr hvs)
    rcases Bool.or_eq_true _ _ |>.mp h with h | h
    · rcases Bool.or_eq_true _ _ |>.mp h with h | h
      · exact absurd (List.isEmpty_iff.mp h) hvne
      · simp at h
        omega
    · exact not_prefix_of_isPrefixOf_false (by simpa using h)
  · intro v hvs hvne hvl
    have h := hB2 v ((List.mem_tails v pat).mpr hvs)
    rcases Bool.or_eq_true _ _ |>.mp h with h | h
    · rcases Bool.or_eq_true _ _ |>.mp h with h | h
      · exact absurd (List.isEmpty_iff.mp h) hvne
      · simp at h
        omega
    · exact not_prefix_of_isPrefixOf_false (by simpa using h)
  · simpa using hB3
  · intro v hvs
    exact not_prefix_of_isPrefixOf_false
      (by simpa using hB4 v ((List.mem_tails v q).mpr hvs))
  · intro v hvs hvne
    have h := hB5 v ((List.mem_tails v q).mpr hvs)
    rcases Bool.or_eq_true _ _ |>.mp h with h | h
    · exact absurd (List.isEmpty_iff.mp h) hvne
    · exact not_prefix_of_isPrefixOf_false (by simpa using h)
  · intro p2 hps hpne hpl
    have h := hB6 p2 ((List.mem_tails p2 q).mpr hps)
    rcases Bool.or_eq_true _ _ |>.mp h with h | h
    · rcases Bool.or_eq_true _ _ |>.mp h with h | h
      · exact absurd (List.isEmpty_iff.mp h) hpne
      · have h2 : p2.length = q.length := by simpa using h
        omega
    · rw [Bool.and_eq_true] at h
      exact ⟨not_prefix_of_isPrefixOf_false (by simpa using h.1),
        not_prefix_of_isPrefixOf_false (by simpa using h.2)⟩

theorem countOcc_inject (X : Str) (hX : X ≠ []) (hnl : '\n' ∉ X) (snip c : Str) :
    countOcc X (injectContent snip c) = countOcc X snip + countOcc X c := by
  rcases hli : lastImportIdx (splitC '\n' c) with _ | i
  · rw [injectContent_none snip c hli, countOcc_barrier X hX '\n' hnl]
  · rw [injectContent_some snip c i hli, countOcc_joinC X hX '\n' hnl]
    show (((splitC '\n' c).take (i + 1) ++ snip :: (splitC '\n' c).drop (i + 1)).map
      (countOcc X)).sum = _
    rw [List.map_append, List.map_cons, List.sum_append, List.sum_cons]
    have hc : countOcc X c = ((splitC '\n' c).map (countOcc X)).sum := by
      conv_lhs => rw [← joinC_splitC '\n' c]
      rw [countOcc_joinC X hX '\n' hnl]
    rw [hc]
    conv_rhs => rw [← List.take_append_drop (i + 1) (splitC '\n' c)]
    rw [List.map_append, List.sum_append]
    omega

/-- C6 counterexample: for the file content `console.info(1)\n` the number of
`console.log(` occurrences is N = 0 and there are no pre-existing
`logger.info(` calls, yet the migrated file contains one `logger.info(`
occurrence — `console.info(` also rewrites to `logger.info(`, so the migrated
count exceeds N plus the pre-existing count. -/
theorem console_info_breaks_count :
    countOcc conLog (str "console.info(1)\n") = 0 ∧
    countOcc logInfo (str "console.info(1)\n") = 0 ∧
    countOcc conLog (migrateContent (str "src/hooks/useX.ts") (str "console.info(1)\n")) = 0 ∧
    countOcc logInfo (migrateContent (str "src/hooks/useX.ts") (str "console.info(1)\n")) = 1 := by
  refine ⟨by decide, by decide, by decide, ?_⟩
  decide

/-- C6 (amended): the call-site substitution replaces every occurrence of the
five literal prefixes per the mapping, so the migrated file contains zero
occurrences of every `console.<level>(` pattern; and for a file with N
occurrences of `console.log(` and M occurrences of `console.info(`, the
migrated file contains N + M occurrences of `logger.info(` beyond any
pre-existing `logger.info(` calls (both levels map to `logger.info(`).  The
hypotheses state that the injected snippet itself contains none of the
tracked patterns, which holds for every snippet the script builds from its
manifest paths. -/
theorem substitution_counts (p c : Str)
    (h1 : countOcc conLog (snippetFor p) = 0)
    (h2 : countOcc conError (snippetFor p) = 0)
    (h3 : countOcc conWarn (snippetFor p) = 0)
    (h4 : countOcc conInfo (snippetFor p) = 0)
    (h5 : countOcc conDebug (snippetFor p) = 0)
    (h6 : countOcc logInfo (snippetFor p) = 0) :
    countOcc conLog (migrateContent p c) = 0 ∧
    countOcc conError (migrateContent p c) = 0 ∧
    countOcc conWarn (migrateContent p c) = 0 ∧
    countOcc conInfo (migrateContent p c) = 0 ∧
    countOcc conDebug (migrateContent p c) = 0 ∧
    countOcc logInfo (migrateContent p c) =
      countOcc logInfo c + countOcc conLog c + countOcc conInfo c := by
  have hmig : migrateContent p c = replaceAll conDebug logDebug (replaceAll conInfo logInfo
      (replaceAll conWarn logWarn (replaceAll conError logError
        (replaceAll conLog logInfo (injectContent (snippetFor p) c))))) := rfl
  rw [hmig]
  set s0 := injectContent (snippetFor p) c with hs0
  set s1 := replaceAll conLog logInfo s0 with hs1
  set s2 := replaceAll conError logError s1 with hs2
  set s3 := replaceAll conWarn logWarn s2 with hs3
  set s4 := replaceAll conInfo logInfo s3 with hs4
  have e0cl : countOcc conLog s0 = countOcc conLog c := by
    rw [hs0, countOcc_inject conLog (by decide) (by decide), h1, Nat.zero_add]
  have e0ce : countOcc conError s0 = countOcc conError c := by
    rw [hs0, countOcc_inject conError (by decide) (by decide), h2, Nat.zero_add]
  have e0cw : countOcc conWarn s0 = countOcc conWarn c := by
    rw [hs0, countOcc_inject conWarn (by decide) (by decide), h3, Nat.zero_add]
  have e0ci : countOcc conInfo s0 = countOcc conInfo c := by
    rw [hs0, countOcc_inject conInfo (by decide) (by decide), h4, Nat.zero_add]
  have e0li : countOcc logInfo s0 = countOcc logInfo c := by
    rw [hs0, countOcc_inject logInfo (by decide) (by decide), h6, Nat.zero_add]
  have cl1 : countOcc conLog s1 = 0 := by
    rw [hs1]
    exact countOcc_self_zero conLog logInfo (by decide) (by decide) s0
  have cl2 : countOcc conLog s2 = 0 := by
    rw [hs2, countOcc_other conError logError conLog (by decide) (by decide) (by decide) s1,
      cl1, show countOcc conLog logError = 0 from by decide]
    simp
  have cl3 : countOcc conLog s3 = 0 := by
    rw [hs3, countOcc_other conWarn logWarn conLog (by decide) (by decide) (by decide) s2,
      cl2, show countOcc conLog logWarn = 0 from by decide]
    simp
  have cl4 : countOcc conLog s4 = 0 := by
    rw [hs4, countOcc_other conInfo logInfo conLog (by decide) (by decide) (by decide) s3,
      cl3, show countOcc conLog logInfo = 0 from by decide]
    simp
  have ce1 : countOcc conError s1 = countOcc conError c := by
    rw [hs1, countOcc_other conLog logInfo conError (by decide) (by decide) (by decide) s0,
      e0ce, show countOcc conError logInfo = 0 from by decide]
    simp
  have ce2 : countOcc conError s2 = 0 := by
    rw [hs2]
    exact countOcc_self_zero conError logError (by decide) (by decide) s1
  have ce3 : countOcc conError s3 = 0 := by
    rw [hs3, countOcc_other conWarn logWarn conError (by decide) (by decide) (by decide) s2,
      ce2, show countOcc conError logWarn = 0 from by decide]
    simp
  have ce4 : countOcc conError s4 = 0 := by
    rw [hs4, countOcc_other conInfo logInfo conError (by decide) (by decide) (by decide) s3,
      ce3, show countOcc conError logInfo = 0 from by decide]
    simp
  have cw1 : countOcc conWarn s1 = countOcc conWarn c := by
    rw [hs1, countOcc_other conLog logInfo conWarn (by decide) (by decide) (by decide) s0,
      e0cw, show countOcc conWarn logInfo = 0 from by decide]
    simp
  have cw2 : countOcc conWarn s2 = countOcc conWarn c := by
    rw [hs2, countOcc_other conError logError conWarn (by decide) (by decide) (by decide) s1,
      cw1, show countOcc conWarn logError = 0 from by decide]
    simp
  have cw3 : countOcc conWarn s3 = 0 := by
    rw [hs3]
    exact countOcc_self_zero conWarn logWarn (by decide) (by decide) s2
  have cw4 : countOcc conWarn s4 = 0 := by
    rw [hs4, countOcc_other conInfo logInfo conWarn (by decide) (by decide) (by decide) s3,
      cw3, show countOcc conWarn logInfo = 0 from by decide]
    simp
  have ci1 : countOcc conInfo s1 = countOcc conInfo c := by
    rw [hs1, countOcc_other conLog logInfo conInfo (by decide) (by decide) (by decide) s0,
      e0ci, show countOcc conInfo logInfo = 0 from by decide]
    simp
  have ci2 : countOcc conInfo s2 = countOcc conInfo c := by
    rw [hs2, countOcc_other conError logError conInfo (by decide) (by decide) (by decide) s1,
      ci1, show countOcc conInfo logError = 0 from by decide]
    simp
  have ci3 : countOcc conInfo s3 = countOcc conInfo c := by
    rw [hs3, countOcc_other conWarn logWarn conInfo (by decide) (by decide) (by decide) s2,
      ci2, show countOcc conInfo logWarn = 0 from by decide]
    simp
  have ci4 : countOcc conInfo s4 = 0 := by
    rw [hs4]
    exact countOcc_self_zero conInfo logInfo (by decide) (by decide) s3
  have li1 : countOcc logInfo s1 = countOcc logInfo c + countOcc conLog c := by
    rw [hs1, countOcc_other conLog logInfo logInfo (by decide) (by decide) (by decide) s0,
      e0li, e0cl, show countOcc logInfo logInfo = 1 from by decide]
    simp
  have li2 : countOcc logInfo s2 = countOcc logInfo c + countOcc conLog c := by
    rw [hs2, countOcc_other conError logError logInfo (by decide) (by decide) (by decide) s1,
      li1, show countOcc logInfo logError = 0 from by decide]
    simp
  have li3 : countOcc logInfo s3 = countOcc logInfo c + countOcc conLog c := by
    rw [hs3, countOcc_other conWarn logWarn logInfo (by decide) (by decide) (by decide) s2,
      li2, show countOcc logInfo logWarn = 0 from by decide]
    simp
  have li4 : countOcc logInfo s4 =
      countOcc logInfo c + countOcc conLog c + countOcc conInfo c := by
    rw [hs4, countOcc_other conInfo logInfo logInfo (by decide) (by decide) (by decide) s3,
      li3, ci3, show countOcc logInfo logInfo = 1 from by decide]
    simp
  refine ⟨?_, ?_, ?_, ?_, ?_, ?_⟩
  · rw [countOcc_other conDebug logDebug conLog (by decide) (by decide) (by decide) s4,
      cl4, show countOcc conLog logDebug = 0 from by decide]
    simp
  · rw [countOcc_other conDebug logDebug conError (by decide) (by decide) (by decide) s4,
      ce4, show countOcc conError logDebug = 0 from by decide]
    simp
  · rw [countOcc_other conDebug logDebug conWarn (by decide) (by decide) (by decide) s4,
      cw4, show countOcc conWarn logDebug = 0 from by decide]
    simp
  · rw [countOcc_other conDebug logDebug conInfo (by decide) (by decide) (by decide) s4,
      ci4, show countOcc conInfo logDebug = 0 from by decide]
    simp
  · exact countOcc_self_zero conDebug logDebug (by decide) (by decide) s4
  · rw [countOcc_other conDebug logDebug logInfo (by decide) (by decide) (by decide) s4,
      li4, show countOcc logInfo logDebug = 0 from by decide]
    simp

/-- C6 witness. -/
theorem substitution_counts_witness :
    countOcc conLog (migrateContent (str "src/hooks/useX.ts")
      (str "console.log(1)\nconsole.log(2)\nlogger.info(3)\n")) = 0 ∧
    countOcc conError (migrateContent (str "src/hooks/useX.ts")
      (str "console.log(1)\nconsole.log(2)\nlogger.info(3)\n")) = 0 ∧
    countOcc conWarn (migrateContent (str "src/hooks/useX.ts")
      (str "console.log(1)\nconsole.log(2)\nlogger.info(3)\n")) = 0 ∧
    countOcc conInfo (migrateContent (str "src/hooks/useX.ts")
      (str "console.log(1)\nconsole.log(2)\nlogger.info(3)\n")) = 0 ∧
    countOcc conDebug (migrateContent (str "src/hooks/useX.ts")
      (str "console.log(1)\nconsole.log(2)\nlogger.info(3)\n")) = 0 ∧
    countOcc logInfo (migrateContent (str "src/hooks/useX.ts")
      (str "console.log(1)\nconsole.log(2)\nlogger.info(3)\n")) =
      countOcc logInfo (str "console.log(1)\nconsole.log(2)\nlogger.info(3)\n") +
      countOcc conLog (str "console.log(1)\nconsole.log(2)\nlogger.info(3)\n") +
      countOcc conInfo (str "console.log(1)\nconsole.log(2)\nlogger.info(3)\n") :=
  substitution_counts (str "src/hooks/useX.ts")
    (str "console.log(1)\nconsole.log(2)\nlogger.info(3)\n")
    (by decide) (by decide) (by decide) (by decide) (by decide) (by decide)

/-- Decidable bundle of the side conditions of `replaceAll_preserves_within`. -/
def condPreserve (pat q : Str) : Bool :=
  (q.tails.all fun v => v.isEmpty || !(v.isPrefixOf pat)) &&
  (q.tails.all fun v => !(pat.isPrefixOf v)) &&
  (q.inits.all fun m => m.isEmpty || !(m.isSuffixOf pat)) &&
  !(hasSub q pat)

theorem replaceAll_keeps_within (pat rep q : Str) (hp : pat ≠ []) (hq : q ≠ [])
    (hc : condPreserve pat q = true) (s x y : Str) (hs : s = x ++ q ++ y) :
    ∃ u v, replaceAll pat rep s = u ++ q ++ v := by
  rw [condPreserve] at hc
  simp only [Bool.and_eq_true] at hc
  rcases hc with ⟨⟨⟨hEa, hEb⟩, hEc⟩, hEd⟩
  rw [List.all_eq_true] at hEa hEb hEc
  apply replaceAll_preserves_within pat rep q hp hq _ _ _ _ s x y hs
  · intro v hvs hvne
    have h := hEa v ((List.mem_tails v q).mpr hvs)
    rcases Bool.or_eq_true _ _ |>.mp h with h | h
    · exact absurd (List.isEmpty_iff.mp h) hvne
    · exact not_prefix_of_isPrefixOf_false (by simpa using h)
  · intro v hvs
    exact not_prefix_of_isPrefixOf_false
      (by simpa using hEb v ((List.mem_tails v q).mpr hvs))
  · intro m hmp hmne
    have h := hEc m ((List.mem_inits m q).mpr hmp)
    rcases Bool.or_eq_true _ _ |>.mp h with h | h
    · exact absurd (List.isEmpty_iff.mp h) hmne
    · exact not_suffix_of_isSuffixOf_false (by simpa using h)
  · simpa using hEd

theorem applySubs_keeps_loggerRef (s x y : Str) (hs : s = x ++ loggerRefSingle ++ y) :
    ∃ u v, applySubs s = u ++ loggerRefSingle ++ v := by
  have hq : loggerRefSingle ≠ [] := by decide
  rcases replaceAll_keeps_within conLog logInfo loggerRefSingle (by decide) hq (by decide)
    s x y hs with ⟨x1, y1, h1⟩
  rcases replaceAll_keeps_within conError logError loggerRefSingle (by decide) hq (by decide)
    _ x1 y1 h1 with ⟨x2, y2, h2⟩
  rcases replaceAll_keeps_within conWarn logWarn loggerRefSingle (by decide) hq (by decide)
    _ x2 y2 h2 with ⟨x3, y3, h3⟩
  rcases replaceAll_keeps_within conInfo logInfo loggerRefSingle (by decide) hq (by decide)
    _ x3 y3 h3 with ⟨x4, y4, h4⟩
  rcases replaceAll_keeps_within conDebug logDebug loggerRefSingle (by decide) hq (by decide)
    _ x4 y4 h4 with ⟨x5, y5, h5⟩
  exact ⟨x5, y5, h5⟩

theorem snippetFor_has_ref (p : Str) : ∃ x y, snippetFor p = x ++ loggerRefSingle ++ y := by
  unfold snippetFor
  rcases getScope p with _ | sc
  · exact ⟨str "import { logger } from ", str "\n", rfl⟩
  · refine ⟨str "import { createScopedLogger } from ",
      str "\n\nconst logger = createScopedLogger(" ++ (qc :: (sc ++ [qc])) ++ str ")\n", ?_⟩
    show scopedSnippet sc = _
    rw [scopedSnippet]
    simp

theorem joinC_elem_within (sep : Char) : ∀ (L : List Str) m, m ∈ L →
    ∃ x y, joinC sep L = x ++ m ++ y := by
  intro L
  induction L with
  | nil =>
    intro m hm
    simp at hm
  | cons a L' ih =>
    intro m hm
    cases L' with
    | nil =>
      rcases List.mem_singleton.mp hm with h
      exact ⟨[], [], by simp [joinC, h]⟩
    | cons b bs =>
      rw [joinC_cons_ne sep a _ (by simp)]
      rcases List.mem_cons.mp hm with h | h
      · exact ⟨[], sep :: joinC sep (b :: bs), by simp [h]⟩
      · rcases ih m h with ⟨x, y, hxy⟩
        exact ⟨a ++ sep :: x, y, by rw [hxy]; simp⟩

theorem injectContent_holds_snip (snip c : Str) :
    ∃ x y, injectContent snip c = x ++ snip ++ y := by
  rcases hli : lastImportIdx (splitC '\n' c) with _ | i
  · rw [injectContent_none snip c hli]
    exact ⟨[], '\n' :: c, by simp⟩
  · rw [injectContent_some snip c i hli]
    apply joinC_elem_within
    show snip ∈ (splitC '\n' c).take (i + 1) ++ snip :: (splitC '\n' c).drop (i + 1)
    exact List.mem_append_right _ (List.mem_cons_self _ _)

theorem hasLoggerRef_migrateContent (p c : Str) :
    hasLoggerRef (migrateContent p c) = true := by
  rcases snippetFor_has_ref p with ⟨a, b, hab⟩
  rcases injectContent_holds_snip (snippetFor p) c with ⟨x, y, hxy⟩
  have hdecomp : injectContent (snippetFor p) c = (x ++ a) ++ loggerRefSingle ++ (b ++ y) := by
    rw [hxy, hab]
    simp
  rcases applySubs_keeps_loggerRef _ _ _ hdecomp with ⟨u, v, huv⟩
  have hsub : hasSub loggerRefSingle (migrateContent p c) = true := by
    rw [hasSub_iff loggerRefSingle (by decide)]
    exact ⟨u, v, huv⟩
  unfold hasLoggerRef
  rw [hsub]
  rfl

/-- Content on which a re-run of `migrate_file` performs no write. -/
def stableContent (c : Str) : Prop := hasLoggerRef c = true ∨ hasConsole c = false

/-- A path whose content (if any) a re-run of `migrate_file` would not touch. -/
def stablePath (fs : FS) (x : Str) : Prop := ∀ c, fs x = some c → stableContent c

/-- A path holding a file that references the logger module. -/
def loggerSome (fs : FS) (x : Str) : Prop := ∃ c, fs x = some c ∧ hasLoggerRef c = true

theorem migrateFile_stable_noop (base : Str) (fs : FS) (p : Str)
    (h : stablePath fs (fullPath base p)) :
    (migrateFile base fs p).1 = fs ∧ (migrateFile base fs p).2 ≠ Outcome.migrated := by
  rcases hc : fs (fullPath base p) with _ | c
  · rw [migrateFile_missing base fs p hc]
    exact ⟨rfl, by simp⟩
  · rcases h c hc with hr | hcon
    · rw [migrateFile_already base fs p c hc hr]
      exact ⟨rfl, by simp⟩
    · by_cases hr : hasLoggerRef c = true
      · rw [migrateFile_already base fs p c hc hr]
        exact ⟨rfl, by simp⟩
      · rw [Bool.not_eq_true] at hr
        rw [migrateFile_nomatch base fs p c hc hr hcon]
        exact ⟨rfl, by simp⟩

theorem migrateFile_other (base : Str) (fs : FS) (p x : Str)
    (h1 : x ≠ fullPath base p) (h2 : x ≠ bakPath base p) :
    (migrateFile base fs p).1 x = fs x := by
  rcases hc : fs (fullPath base p) with _ | c
  · rw [migrateFile_missing base fs p hc]
  · by_cases hr : hasLoggerRef c = true
    · rw [migrateFile_already base fs p c hc hr]
    · rw [Bool.not_eq_true] at hr
      by_cases hcon : hasConsole c = true
      · rw [migrateFile_migrates base fs p c hc hr hcon]
        show fsSet (fsSet fs (bakPath base p) c) (fullPath base p) (migrateContent p c) x = fs x
        rw [fsSet_other _ _ _ _ h1, fsSet_other _ _ _ _ h2]
      · rw [Bool.not_eq_true] at hcon
        rw [migrateFile_nomatch base fs p c hc hr hcon]

theorem migrateFile_own_stable (base : Str) (fs : FS) (p : Str) :
    stablePath (migrateFile base fs p).1 (fullPath base p) := by
  rcases hc : fs (fullPath base p) with _ | c
  · rw [migrateFile_missing base fs p hc]
    intro c2 hc2
    have hc2b : fs (fullPath base p) = some c2 := hc2
    rw [hc] at hc2b
    exact absurd hc2b (by simp)
  · by_cases hr : hasLoggerRef c = true
    · rw [migrateFile_already base fs p c hc hr]
      intro c2 hc2
      have hc2b : fs (fullPath base p) = some c2 := hc2
      rw [hc] at hc2b
      exact Or.inl ((Option.some.inj hc2b) ▸ hr)
    · rw [Bool.not_eq_true] at hr
      by_cases hcon : hasConsole c = true
      · rw [migrateFile_migrates base fs p c hc hr hcon]
        intro c2 hc2
        rw [show (fsSet (fsSet fs (bakPath base p) c) (fullPath base p)
          (migrateContent p c), Outcome.migrated).1 = fsSet (fsSet fs (bakPath base p) c)
            (fullPath base p) (migrateContent p c) from rfl, fsSet_same] at hc2
        exact Or.inl ((Option.some.inj hc2) ▸ hasLoggerRef_migrateContent p c)
      · rw [Bool.not_eq_true] at hcon
        rw [migrateFile_nomatch base fs p c hc hr hcon]
        intro c2 hc2
        have hc2b : fs (fullPath base p) = some c2 := hc2
        rw [hc] at hc2b
        exact Or.inr ((Option.some.inj hc2b) ▸ hcon)

theorem migrateFile_step_stable (base : Str) (fs : FS) (p x : Str)
    (h : x = fullPath base p ∨ stablePath fs x) (hb : x ≠ bakPath base p) :
    stablePath (migrateFile base fs p).1 x := by
  by_cases hx : x = fullPath base p
  · rw [hx]
    exact migrateFile_own_stable base fs p
  · rcases h with h | h
    · exact absurd h hx
    · intro c hc
      rw [migrateFile_other base fs p x hx hb] at hc
      exact h c hc

theorem migrateFile_step_logger (base : Str) (fs : FS) (p x : Str)
    (h : loggerSome fs x) (hb : x ≠ bakPath base p) :
    loggerSome (migrateFile base fs p).1 x := by
  by_cases hx : x = fullPath base p
  · subst hx
    rcases h with ⟨c, hc, hr⟩
    rw [migrateFile_already base fs p c hc hr]
    exact ⟨c, hc, hr⟩
  · rcases h with ⟨c, hc, hr⟩
    refine ⟨c, ?_, hr⟩
    rw [migrateFile_other base fs p x hx hb]
    exact hc

theorem migrateFile_migrated_logger (base : Str) (fs : FS) (p : Str)
    (h : (migrateFile base fs p).2 = Outcome.migrated) :
    loggerSome (migrateFile base fs p).1 (fullPath base p) := by
  rcases hc : fs (fullPath base p) with _ | c
  · rw [migrateFile_missing base fs p hc] at h
    simp at h
  · by_cases hr : hasLoggerRef c = true
    · rw [migrateFile_already base fs p c hc hr] at h
      simp at h
    · rw [Bool.not_eq_true] at hr
      by_cases hcon : hasConsole c = true
      · rw [migrateFile_migrates base fs p c hc hr hcon]
        exact ⟨migrateContent p c, fsSet_same _ _ _, hasLoggerRef_migrateContent p c⟩
      · rw [Bool.not_eq_true] at hcon
        rw [migrateFile_nomatch base fs p c hc hr hcon] at h
        simp at h

theorem runAll_cons (base : Str) (fs : FS) (p : Str) (rest : List Str) :
    runAll base fs (p :: rest) =
      ((runAll base (migrateFile base fs p).1 rest).1,
        (migrateFile base fs p).2 :: (runAll base (migrateFile base fs p).1 rest).2) := rfl

theorem runAll_keep_stable (base : Str) : ∀ (m : List Str) (fs : FS) (x : Str),
    stablePath fs x → (∀ p' ∈ m, x ≠ bakPath base p') →
    stablePath (runAll base fs m).1 x := by
  intro m
  induction m with
  | nil =>
    intro fs x h _
    exact h
  | cons p rest ih =>
    intro fs x h hb
    rw [runAll_cons]
    apply ih
    · exact migrateFile_step_stable base fs p x (Or.inr h) (hb p (by simp))
    · intro p' hp'
      exact hb p' (List.mem_cons_of_mem p hp')

theorem runAll_keep_logger (base : Str) : ∀ (m : List Str) (fs : FS) (x : Str),
    loggerSome fs x → (∀ p' ∈ m, x ≠ bakPath base p') →
    loggerSome (runAll base fs m).1 x := by
  intro m
  induction m with
  | nil =>
    intro fs x h _
    exact h
  | cons p rest ih =>
    intro fs x h hb
    rw [runAll_cons]
    apply ih
    · exact migrateFile_step_logger base fs p x h (hb p (by simp))
    · intro p' hp'
      exact hb p' (List.mem_cons_of_mem p hp')

theorem runAll_establishes (base : Str) : ∀ (m : List Str) (fs : FS),
    (∀ p1 ∈ m, ∀ p2 ∈ m, fullPath base p2 ≠ bakPath base p1) →
    ∀ p ∈ m, stablePath (runAll base fs m).1 (fullPath base p) := by
  intro m
  induction m with
  | nil =>
    intro fs _ p hp
    simp at hp
  | cons p0 rest ih =>
    intro fs hclean p hp
    rw [runAll_cons]
    rcases List.mem_cons.mp hp with h | h
    · subst h
      apply runAll_keep_stable
      · exact migrateFile_own_stable base fs p
      · intro p' hp'
        exact hclean p' (List.mem_cons_of_mem p hp') p (List.mem_cons_self p rest)
    · exact ih (migrateFile base fs p0).1
        (fun p1 h1 p2 h2 =>
          hclean p1 (List.mem_cons_of_mem p0 h1) p2 (List.mem_cons_of_mem p0 h2)) p h

theorem runAll_noop (base : Str) : ∀ (m : List Str) (fs : FS),
    (∀ p ∈ m, stablePath fs (fullPath base p)) → (runAll base fs m).1 = fs := by
  intro m
  induction m with
  | nil =>
    intro fs _
    rfl
  | cons p rest ih =>
    intro fs h
    rw [runAll_cons]
    have hstep := migrateFile_stable_noop base fs p (h p (by simp))
    rw [hstep.1]
    exact ih fs (fun p' hp' => h p' (List.mem_cons_of_mem p hp'))

/-- C3: running the migrator twice over the same entry list is idempotent —
the filesystem after the second run equals the filesystem after the first
run, and on the second run every entry that the first run migrated (whose
content therefore contains the `'@/lib/logger'` reference) is recorded
skipped-already-done.  The hypothesis says no manifest entry resolves to
another entry's backup path, which holds for the script's manifest (every
entry ends in `.ts`/`.tsx`, never in `.bak`). -/
theorem run_twice_idempotent (base : Str) (m : List Str) (fs : FS)
    (hclean : ∀ p1 ∈ m, ∀ p2 ∈ m, fullPath base p2 ≠ bakPath base p1) :
    (runAll base (runAll base fs m).1 m).1 = (runAll base fs m).1 ∧
    ∀ i : Nat, (runAll base fs m).2[i]? = some Outcome.migrated →
      (runAll base (runAll base fs m).1 m).2[i]? = some Outcome.skippedAlready := by
  constructor
  · exact runAll_noop base m (runAll base fs m).1
      (runAll_establishes base m fs hclean)
  · induction m generalizing fs with
    | nil =>
      intro i h
      simp [runAll] at h
    | cons p rest ih =>
      intro i h
      have hst : stablePath (runAll base fs (p :: rest)).1 (fullPath base p) :=
        runAll_establishes base (p :: rest) fs hclean p (by simp)
      have hnoop := migrateFile_stable_noop base (runAll base fs (p :: rest)).1 p hst
      rw [runAll_cons base (runAll base fs (p :: rest)).1 p rest, hnoop.1]
      rw [runAll_cons base fs p rest] at h hst ⊢
      rcases i with _ | i'
      · simp only [List.getElem?_cons_zero, Option.some.injEq] at h ⊢
        have hlog1 : loggerSome (migrateFile base fs p).1 (fullPath base p) :=
          migrateFile_migrated_logger base fs p h
        have hlog2 : loggerSome (runAll base (migrateFile base fs p).1 rest).1
            (fullPath base p) := by
          apply runAll_keep_logger base rest _ _ hlog1
          intro p' hp'
          exact hclean p' (List.mem_cons_of_mem p hp') p (List.mem_cons_self p rest)
        rcases hlog2 with ⟨c, hc, hr⟩
        rw [migrateFile_already base _ p c hc hr]
      · simp only [List.getElem?_cons_succ] at h ⊢
        have hcleanrest : ∀ p1 ∈ rest, ∀ p2 ∈ rest, fullPath base p2 ≠ bakPath base p1 :=
          fun p1 h1 p2 h2 =>
            hclean p1 (List.mem_cons_of_mem p h1) p2 (List.mem_cons_of_mem p h2)
        exact ih (migrateFile base fs p).1 hcleanrest i' h

/-- C3 witness. -/
theorem run_twice_idempotent_witness :
    (runAll (str "b")
      (runAll (str "b")
        (fun x => if x = fullPath (str "b") (str "a.ts")
          then some (str "console.log(1)\n") else none) [str "a.ts"]).1 [str "a.ts"]).1 =
      (runAll (str "b")
        (fun x => if x = fullPath (str "b") (str "a.ts")
          then some (str "console.log(1)\n") else none) [str "a.ts"]).1 ∧
    ∀ i : Nat, (runAll (str "b")
        (fun x => if x = fullPath (str "b") (str "a.ts")
          then some (str "console.log(1)\n") else none) [str "a.ts"]).2[i]? =
        some Outcome.migrated →
      (runAll (str "b")
        (runAll (str "b")
          (fun x => if x = fullPath (str "b") (str "a.ts")
            then some (str "console.log(1)\n") else none) [str "a.ts"]).1 [str "a.ts"]).2[i]? =
        some Outcome.skippedAlready :=
  run_twice_idempotent (str "b") [str "a.ts"]
    (fun x => if x = fullPath (str "b") (str "a.ts")
      then some (str "console.log(1)\n") else none)
    (by intro p1 h1 p2 h2
        simp only [List.mem_singleton] at h1 h2
        subst h1
        subst h2
        decide)
